import Mathlib

/-!
Verification development for the Ethio Telecom receipt extraction and
validation pipeline (utils/ethiotelecomReceipt.js).

The pure string/record logic of the pipeline is embedded shallowly:
strings are lists of characters, the DOM handed over by the HTML parsing
collaborator is a list of table rows (each row a list of cell texts with
interactive sub-elements already stripped, as the source's
cellTextNoLinks receives them), and the WHATWG URL parser -- an external
library, not part of this repository -- is represented by its result, an
optional record of protocol and hostname.  The ECMAScript regular
expressions of the source are embedded as specialized executable
matchers that follow the engine's leftmost-match, greedy-with-
backtracking semantics for the concrete patterns appearing in the code.
Character classes use code points (Char.toNat) so that facts about them
reduce to arithmetic.
-/

deriving instance DecidableEq for Except

namespace Receipt

/-- ECMAScript whitespace class: the characters matched by the regex
class backslash-s and removed by String.prototype.trim. -/
def isJsWhitespace (c : Char) : Bool :=
  c.toNat = 9 || c.toNat = 10 || c.toNat = 11 || c.toNat = 12 || c.toNat = 13 ||
  c.toNat = 32 || c.toNat = 160 || c.toNat = 5760 ||
  (8192 ≤ c.toNat && c.toNat ≤ 8202) ||
  c.toNat = 8232 || c.toNat = 8233 || c.toNat = 8239 || c.toNat = 8287 ||
  c.toNat = 12288 || c.toNat = 65279

/-- ASCII decimal digit, the regex class 0-9. -/
def isDigitChar (c : Char) : Bool := 48 ≤ c.toNat && c.toNat ≤ 57

/-- ASCII uppercase letter A-Z. -/
def isAsciiUpper (c : Char) : Bool := 65 ≤ c.toNat && c.toNat ≤ 90

/-- ASCII lowercase letter a-z. -/
def isAsciiLower (c : Char) : Bool := 97 ≤ c.toNat && c.toNat ≤ 122

/-- ASCII letter or digit: the class A-Za-z0-9 of the transaction-code
regex, and (under the i flag) the class A-Z0-9 of the invoice regex. -/
def isAlnumChar (c : Char) : Bool :=
  isDigitChar c || isAsciiUpper c || isAsciiLower c

/-- ECMAScript word character (regex backslash-w without the u flag):
ASCII letter, digit or underscore.  Used by the boundary assertion. -/
def isWordChar (c : Char) : Bool := isAlnumChar c || c.toNat = 95

/-- ASCII colon or the full-width colon U+FF1A, the class stripped from
the end of a string by cleanText. -/
def isColonChar (c : Char) : Bool := c.toNat = 58 || c.toNat = 65306

/-- Character of the amount integer part: the regex class 0-9 or comma. -/
def isAmtChar (c : Char) : Bool := isDigitChar c || c.toNat = 44

/-- Separator of the payment-date regex: hyphen or slash. -/
def isSepChar (c : Char) : Bool := c.toNat = 45 || c.toNat = 47

/-- Case-insensitive character comparison as ECMAScript canonicalization
performs it for the ASCII pattern literals of this module: equal, or
equal up to the 32-point ASCII case offset. -/
def ciChEq (a b : Char) : Bool :=
  a = b || (isAsciiUpper a && b.toNat = a.toNat + 32) ||
  (isAsciiUpper b && a.toNat = b.toNat + 32)

/-- Case-insensitive literal match: if the text starts with the pattern
(up to ASCII case), return the rest of the text. -/
def matchCI : List Char → List Char → Option (List Char)
  | [], l => some l
  | _ :: _, [] => none
  | p :: ps, c :: cs => if ciChEq p c then matchCI ps cs else none

/-- Pointwise case-insensitive equality of two character lists. -/
def ciEqL : List Char → List Char → Bool
  | [], [] => true
  | p :: ps, c :: cs => ciChEq p c && ciEqL ps cs
  | _, _ => false

/-- Exact prefix test for character lists. -/
def hasPrefixL : List Char → List Char → Bool
  | [], _ => true
  | _ :: _, [] => false
  | a :: as, b :: bs => a = b && hasPrefixL as bs

/-- Substring containment, the embedding of String.prototype.includes. -/
def containsSub (pat : List Char) : List Char → Bool
  | [] => hasPrefixL pat []
  | c :: rest => hasPrefixL pat (c :: rest) || containsSub pat rest

/-- First association for a key in an association list, the embedding of
property read on the plain objects the source builds. -/
def lookupL (k : List Char) : List (List Char × List Char) → Option (List Char)
  | [] => none
  | (k', v) :: rest => if k' = k then some v else lookupL k rest

/-- Truthiness of a JavaScript string: non-empty. -/
def truthyS (s : List Char) : Bool := s ≠ []

/-- Truthiness of a nullable JavaScript string. -/
def truthyO : Option (List Char) → Bool
  | none => false
  | some s => truthyS s

/-- The JavaScript expression x or-else null: an empty string collapses
to the absent value. -/
def orNull : Option (List Char) → Option (List Char)
  | none => none
  | some s => if s = [] then none else some s

/-! ## Text normalizer (cleanText, normalizeKey) -/

/-- Stage one of cleanText: replace the non-breaking space U+00A0 with a
regular space (the replace of backslash-u00a0 by a space). -/
def nbspToSpace (c : Char) : Char := if c.toNat = 160 then ' ' else c

/-- Preparation for whitespace collapsing: send every ECMAScript
whitespace character to a plain space. -/
def wsToSpace (c : Char) : Char := if isJsWhitespace c then ' ' else c

/-- Collapse adjacent spaces to one.  After wsToSpace this computes the
replace of one-or-more whitespace by a single space. -/
def squeeze : List Char → List Char
  | [] => []
  | [c] => [c]
  | a :: b :: rest =>
    if a = ' ' && b = ' ' then squeeze (b :: rest) else a :: squeeze (b :: rest)

/-- Remove the maximal run of colon characters at the end of the string:
the replace of the anchored class colon / full-width colon. -/
def stripTrailingColons : List Char → List Char
  | [] => []
  | c :: rest =>
    if stripTrailingColons rest = [] && isColonChar c then []
    else c :: stripTrailingColons rest

/-- Remove trailing whitespace. -/
def trimRight : List Char → List Char
  | [] => []
  | c :: rest =>
    if trimRight rest = [] && isJsWhitespace c then []
    else c :: trimRight rest

/-- String.prototype.trim: drop whitespace at both ends. -/
def trimWs (l : List Char) : List Char := (trimRight l).dropWhile isJsWhitespace

/-- cleanText from the source: replace non-breaking spaces, collapse
whitespace runs to one space, strip trailing colons, trim. -/
def cleanText (l : List Char) : List Char :=
  trimWs (stripTrailingColons (squeeze (l.map (fun c => wsToSpace (nbspToSpace c)))))

/-- ASCII lower-casing of a character, the effect of toLowerCase on the
ASCII range this module compares on. -/
def lowerC (c : Char) : Char :=
  if isAsciiUpper c then Char.ofNat (c.toNat + 32) else c

/-- normalizeKey from the source: cleanText, lower-case, collapse
whitespace again, trim again. -/
def normalizeKey (l : List Char) : List Char :=
  trimWs (squeeze (((cleanText l).map lowerC).map wsToSpace))

/-! ## Name segmenter (parseEthiopianName) -/

/-- Split a character list at every occurrence of the given character,
the embedding of String.prototype.split with a one-character separator. -/
def splitOnChar (sep : Char) : List Char → List (List Char)
  | [] => [[]]
  | c :: rest =>
    match splitOnChar sep rest with
    | [] => [[]]
    | t :: ts => if c = sep then [] :: t :: ts else (c :: t) :: ts

/-- Join token lists with single spaces, the embedding of join. -/
def joinSpace : List (List Char) → List Char
  | [] => []
  | [t] => t
  | t :: ts => t ++ ' ' :: joinSpace ts

/-- Whitespace-delimited tokens of the cleaned name: split on space and
drop empty fragments (split then filter Boolean). -/
def nameTokens (l : List Char) : List (List Char) :=
  (splitOnChar ' ' (cleanText l)).filter (fun t => t ≠ [])

/-- NameParts: the positional decomposition of a personal name. -/
structure NameParts where
  full : List Char
  first : Option (List Char)
  father : Option (List Char)
  grandfather : Option (List Char)
  rest : Option (List Char)
deriving DecidableEq, Repr

/-- parseEthiopianName from the source: null on an empty cleaned input,
otherwise token one is first, token two father, token three grandfather,
the remaining tokens joined are rest, and full is the re-joined token
sequence. -/
def parseEthiopianName (fullName : List Char) : Option NameParts :=
  let cleaned := cleanText fullName
  if cleaned = [] then none
  else
    let parts := (splitOnChar ' ' cleaned).filter (fun t => t ≠ [])
    some
      { full := joinSpace parts
        first := orNull parts[0]?
        father := orNull parts[1]?
        grandfather := orNull parts[2]?
        rest := if parts.drop 3 ≠ [] then some (joinSpace (parts.drop 3)) else none }

/-! ## Junk filter (isPdfJunkValue, isJunkPair) -/

/-- isPdfJunkValue from the source: the normalized value is one of the
PDF-download artifacts, or contains both the word download and the word
pdf. -/
def isPdfJunkValue (v : List Char) : Bool :=
  let t := normalizeKey v
  t = "download the pdf".toList || t = "download pdf".toList ||
  (containsSub "download".toList t && containsSub "pdf".toList t)

/-- isJunkPair from the source: either side empty, a PDF artifact value,
or a label duplicated as its own value. -/
def isJunkPair (k v : List Char) : Bool :=
  !truthyS k || !truthyS v || isPdfJunkValue v || normalizeKey k = normalizeKey v

/-! ## Raw pair extractor (cellTextNoLinks, extractReceiptRawPairs) -/

/-- cellTextNoLinks after the structural stripping the DOM collaborator
performs: clean the cell text, and blank it if it is a PDF artifact. -/
def cellText (s : List Char) : List Char :=
  let t := cleanText s
  if isPdfJunkValue t then [] else t

/-- Consecutive pairing of a cell list: (cell 0, cell 1), (cell 2,
cell 3), and so on; a trailing unpaired cell is discarded. -/
def pairChunks : List (List Char) → List (List Char × List Char)
  | a :: b :: rest => (a, b) :: pairChunks rest
  | _ => []

/-- Property write on a plain object: replace the value of an existing
key in place, otherwise append the new key. -/
def setKey (k v : List Char) : List (List Char × List Char) → List (List Char × List Char)
  | [] => [(k, v)]
  | (k', v') :: rest => if k' = k then (k, v) :: rest else (k', v') :: setKey k v rest

/-- The statement: if raw of k is falsy then assign raw of k the value v. -/
def storePair (raw : List (List Char × List Char)) (k v : List Char) :
    List (List Char × List Char) :=
  if (lookupL k raw).getD [] = [] then setKey k v raw else raw

/-- One table row of extractReceiptRawPairs: rows with fewer than two
cells are skipped; otherwise the cleaned cell texts are paired
consecutively and each pair with both sides non-empty is stored
first-wins. -/
def processRowSrc (raw : List (List Char × List Char)) (cells : List (List Char)) :
    List (List Char × List Char) :=
  if cells.length < 2 then raw
  else
    (pairChunks (cells.map cellText)).foldl
      (fun r p => if p.1 = [] || p.2 = [] then r else storePair r p.1 p.2) raw

/-- extractReceiptRawPairs from the source, over the document's table
rows in order. -/
def extractReceiptRawPairs (doc : List (List (List Char))) :
    List (List Char × List Char) :=
  doc.foldl processRowSrc []

/-- cleanRawPairs from the source: keep the pairs that are not junk. -/
def cleanRawPairs (raw : List (List Char × List Char)) :
    List (List Char × List Char) :=
  raw.filter (fun p => !isJunkPair p.1 p.2)

/-- pickExact from the source: the first listed key whose value is
present and truthy. -/
def pickExact (raw : List (List Char × List Char)) :
    List (List Char) → Option (List Char)
  | [] => none
  | k :: ks =>
    match lookupL k raw with
    | some v => if v ≠ [] then some v else pickExact raw ks
    | none => pickExact raw ks

/-! Specification-level restatement of the raw pair extractor, written
from the words of the spec for the refinement proof of the extractor:
collect every row's consecutive pairs of cleaned cell texts (rows with
fewer than two cells yield none, pairs with an empty side are skipped),
then store them across the whole document keeping the first value seen
for each label. -/

/-- Pairs contributed by one row according to the spec. -/
def rowPairsSpec (cells : List (List Char)) : List (List Char × List Char) :=
  if cells.length < 2 then []
  else (pairChunks (cells.map cellText)).filter (fun p => p.1 ≠ [] && p.2 ≠ [])

/-- First-wins insertion: keep the stored value when the label is
already present, otherwise append. -/
def insFirst (r : List (List Char × List Char)) (p : List Char × List Char) :
    List (List Char × List Char) :=
  if (lookupL p.1 r).isSome then r else r ++ [p]

/-- First-wins accumulation of labelled pairs. -/
def firstWins (ps : List (List Char × List Char)) : List (List Char × List Char) :=
  ps.foldl insFirst []

/-- The spec's description of the whole-document extraction. -/
def rawPairsSpec (doc : List (List (List Char))) : List (List Char × List Char) :=
  firstWins (doc.flatMap rowPairsSpec)

/-! ## Embedded regular-expression matchers

Each search of the source (match against a case-insensitive anchored
pattern starting with a word boundary and a literal) is embedded as a
per-position matcher plus a leftmost scan.  The scan carries the
wordness of the previous character: since every pattern here begins
with a word character, the boundary assertion holds at a position
exactly when the previous character is not a word character. -/

/-- Boundary assertion after a match: end of input or a non-word
character. -/
def boundaryOk : List Char → Bool
  | [] => true
  | c :: _ => !isWordChar c

/-- Leftmost scan of a per-position matcher, threading the wordness of
the previous character for the leading boundary assertion. -/
def scanB (att : List Char → Option (List Char)) : Bool → List Char → Option (List Char)
  | _, [] => none
  | pw, c :: rest =>
    match (if pw then none else att (c :: rest)) with
    | some r => some r
    | none => scanB att (isWordChar c) rest

/-- Tail of the settled-amount pattern after the literal: optional
whitespace, then the fraction alternatives of the optional group
dot-digits in backtracking order (two digits, one digit, absent). -/
def fracCands : List Char → List (List Char × List Char)
  | [] => [([], [])]
  | c :: rest =>
    if c = '.' then
      match rest with
      | [] => [([], c :: rest)]
      | [a] =>
        (if isDigitChar a then [(['.', a], ([] : List Char))] else []) ++ [([], c :: rest)]
      | a :: b :: r2 =>
        (if isDigitChar a && isDigitChar b then [(['.', a, b], r2)] else []) ++
        (if isDigitChar a then [(['.', a], b :: r2)] else []) ++ [([], c :: rest)]
    else [([], c :: rest)]

/-- Close the settled-amount pattern: optional whitespace, the literal
Birr up to case, then a word boundary; on success the capture is
returned. -/
def finishBirr (cap rest : List Char) : Option (List Char) :=
  match matchCI "birr".toList (rest.dropWhile isJsWhitespace) with
  | some rest2 => if boundaryOk rest2 then some cap else none
  | none => none

/-- Number-and-currency part of the settled-amount pattern: greedy
integer part of digits and commas after optional whitespace, then the
fraction alternatives. -/
def settledTail (l : List Char) : Option (List Char) :=
  if ((l.dropWhile isJsWhitespace).takeWhile isAmtChar) = [] then none
  else
    (fracCands ((l.dropWhile isJsWhitespace).dropWhile isAmtChar)).findSome?
      (fun fr => finishBirr
        ((l.dropWhile isJsWhitespace).takeWhile isAmtChar ++ fr.1) fr.2)

/-- Per-position matcher of the settled-amount regex of the source. -/
def settledAtPos (l : List Char) : Option (List Char) :=
  match matchCI "settled amount".toList l with
  | some r => settledTail r
  | none => none

/-- Per-position matcher of the invoice-number regex: the literal
Invoice No. up to case, optional whitespace, then at least six letters
or digits up to a word boundary. -/
def invoiceAtPos (l : List Char) : Option (List Char) :=
  match matchCI "invoice no.".toList l with
  | some r =>
    let r1 := r.dropWhile isJsWhitespace
    let run := r1.takeWhile isAlnumChar
    if 6 ≤ run.length && boundaryOk (r1.dropWhile isAlnumChar) then some run else none
  | none => none

/-- Per-position matcher of the payment-date regex: the literal Payment
date up to case, optional whitespace, a day-month-year group with
hyphen or slash separators, at least one whitespace character, and a
colon-separated time, closed by a word boundary. -/
def dateAtPos (l : List Char) : Option (List Char) :=
  match matchCI "payment date".toList l with
  | none => none
  | some r =>
    match r.dropWhile isJsWhitespace with
    | a1 :: a2 :: s1 :: b1 :: b2 :: s2 :: c1 :: c2 :: c3 :: c4 :: rest =>
      if isDigitChar a1 && isDigitChar a2 && isSepChar s1 && isDigitChar b1 &&
         isDigitChar b2 && isSepChar s2 && isDigitChar c1 && isDigitChar c2 &&
         isDigitChar c3 && isDigitChar c4 then
        let gap := rest.takeWhile isJsWhitespace
        if gap = [] then none
        else
          match rest.dropWhile isJsWhitespace with
          | h1 :: h2 :: k1 :: m1 :: m2 :: k2 :: x1 :: x2 :: rest2 =>
            if isDigitChar h1 && isDigitChar h2 && k1 = ':' && isDigitChar m1 &&
               isDigitChar m2 && k2 = ':' && isDigitChar x1 && isDigitChar x2 &&
               boundaryOk rest2 then
              some (a1 :: a2 :: s1 :: b1 :: b2 :: s2 :: c1 :: c2 :: c3 :: c4 ::
                    (gap ++ [h1, h2, k1, m1, m2, k2, x1, x2]))
            else none
          | _ => none
      else none
    | _ => none

/-- extractByRegex for the settled-amount pattern: leftmost match, then
cleanText of the captured group. -/
def settledSearch (t : List Char) : Option (List Char) :=
  (scanB settledAtPos false t).map cleanText

/-- extractByRegex for the invoice-number pattern. -/
def invoiceSearch (t : List Char) : Option (List Char) :=
  (scanB invoiceAtPos false t).map cleanText

/-- extractByRegex for the payment-date pattern. -/
def dateSearch (t : List Char) : Option (List Char) :=
  (scanB dateAtPos false t).map cleanText

/-- One word-with-gap step of the not-found phrasing test: the words of
a phrase separated by one-or-more whitespace characters, matched up to
case at the head of the text. -/
def wordsGapAt : List (List Char) → List Char → Bool
  | [], _ => true
  | [w], l => (matchCI w l).isSome
  | w :: w2 :: ws, l =>
    match matchCI w l with
    | some (c :: r) =>
      isJsWhitespace c && wordsGapAt (w2 :: ws) (r.dropWhile isJsWhitespace)
    | _ => false

/-- The alternation of the four operator-side not-found phrases at the
head of the text. -/
def notFoundAt (l : List Char) : Bool :=
  wordsGapAt ["no".toList, "data".toList] l ||
  wordsGapAt ["not".toList, "found".toList] l ||
  wordsGapAt ["invalid".toList, "invoice".toList] l ||
  wordsGapAt ["does".toList, "not".toList, "exist".toList] l

/-- The test of the not-found regex: some position of the text starts
one of the four phrases. -/
def notFoundScan : List Char → Bool
  | [] => false
  | c :: rest => notFoundAt (c :: rest) || notFoundScan rest

/-- Worker of the global case-insensitive removal of the literal
download the pdf.  The fuel argument, instantiated with the text
length, only makes the recursion structural: every step consumes one
fuel unit and drops at least one character, so the fuel never runs out
before the text does. -/
def removePdfAux : Nat → List Char → List Char
  | 0, _ => []
  | _ + 1, [] => []
  | n + 1, c :: rest =>
    if (matchCI "download the pdf".toList (c :: rest)).isSome then
      removePdfAux n (rest.drop 15)
    else c :: removePdfAux n rest

/-- Global case-insensitive removal of the literal download the pdf,
the replace the source applies to the page body before the regex
fallbacks.  Replacement resumes after each removed occurrence. -/
def removePdf (l : List Char) : List Char := removePdfAux l.length l

/-! ## Canonical field resolver and acceptance gate -/

/-- Failure taxonomy of the pipeline (the error codes raised by the
embedded portion of the source). -/
structure ParseDetails where
  hasInvoiceNo : Bool
  hasSettledAmount : Bool
  hasCreditedPartyAccountNo : Bool
deriving DecidableEq, Repr

inductive PipeError where
  | txFormat
  | invalidUrl
  | invalidProtocol
  | hostNotAllowed
  | txExtractFailed
  | txNotFound
  | parseFail (d : ParseDetails)
deriving DecidableEq, Repr

/-- CanonicalReceipt: the output record of extractCanonical.  The
sourceUrl field is attached by the caller after the gate and carries no
decision logic, so it is not modelled. -/
structure Canonical where
  payerName : Option (List Char)
  payerNameParts : Option NameParts
  payerTelebirrNo : Option (List Char)
  creditedPartyName : Option (List Char)
  creditedPartyNameParts : Option NameParts
  creditedPartyAccountNo : Option (List Char)
  transactionStatus : Option (List Char)
  invoiceNo : List Char
  paymentDate : Option (List Char)
  settledAmount : Option (List Char)
  rawData : List (List Char × List Char)
deriving DecidableEq, Repr

/-- The conditional cleanText of a picked name string: the JavaScript
ternary on a nullable string. -/
def cleanOpt : Option (List Char) → Option (List Char)
  | none => none
  | some s => if s = [] then none else some (cleanText s)

/-- extractCanonical from the source, over the table rows handed over
by the DOM collaborator, the raw body text, and the caller's
transaction identifier. -/
def extractCanonical (doc : List (List (List Char))) (bodyRaw : List Char)
    (tx : List Char) : Canonical :=
  let raw := cleanRawPairs (extractReceiptRawPairs doc)
  let bodyText := removePdf (cleanText bodyRaw)
  let payerNameStr := pickExact raw ["የከፋይ ስም/Payer Name".toList, "Payer Name".toList]
  let creditedNameStr := pickExact raw
    ["የገንዘብ ተቀባይ ስም/Credited Party name".toList,
     "የገንዘብ ተቀባይ ስም/Credited party name".toList,
     "Credited Party name".toList]
  { payerName := cleanOpt payerNameStr
    payerNameParts := parseEthiopianName (payerNameStr.getD [])
    payerTelebirrNo := pickExact raw
      ["የከፋይ ቴሌብር ቁ./Payer telebirr no.".toList, "Payer telebirr no.".toList]
    creditedPartyName := cleanOpt creditedNameStr
    creditedPartyNameParts := parseEthiopianName (creditedNameStr.getD [])
    creditedPartyAccountNo := pickExact raw
      ["የገንዘብ ተቀባይ ቴሌብር ቁ./Credited party account no".toList,
       "Credited party account no".toList]
    transactionStatus := pickExact raw
      ["የክፍያው ሁኔታ/transaction status".toList, "Transaction status".toList]
    invoiceNo :=
      match invoiceSearch bodyText with
      | some s => if s = [] then tx else s
      | none => tx
    paymentDate := orNull (dateSearch bodyText)
    settledAmount := orNull (settledSearch bodyText)
    rawData := raw }

/-- The acceptance gate of getReceiptCanonical: require the three
critical fields, otherwise raise PARSE_FAIL with the per-field presence
report. -/
def acceptanceGate (c : Canonical) : Except PipeError Canonical :=
  if !truthyS c.invoiceNo || !truthyO c.settledAmount ||
     !truthyO c.creditedPartyAccountNo then
    .error (.parseFail
      { hasInvoiceNo := truthyS c.invoiceNo
        hasSettledAmount := truthyO c.settledAmount
        hasCreditedPartyAccountNo := truthyO c.creditedPartyAccountNo })
  else .ok c

/-- Gate success as a boolean. -/
def exceptOk : Except PipeError Canonical → Bool
  | .ok _ => true
  | .error _ => false

/-- The post-fetch portion of getReceiptCanonical: inspect the cleaned
body for the operator-side not-found phrasing, then resolve and pass
the acceptance gate.  The upstream fetch and the EMPTY_HTML length
check on the raw payload are the external collaborator's side. -/
def processHtmlPage (doc : List (List (List Char))) (bodyRaw : List Char)
    (tx : List Char) : Except PipeError Canonical :=
  if notFoundScan (cleanText bodyRaw) then .error .txNotFound
  else acceptanceGate (extractCanonical doc bodyRaw tx)

/-! ## Identifier and URL safety gate -/

/-- Anchored match of exactly n repetitions of a character class, the
embedding of the anchored regex class repetition of the transaction-
code test. -/
def repMatch (cls : Char → Bool) : Nat → List Char → Bool
  | 0, [] => true
  | 0, _ :: _ => false
  | _ + 1, [] => false
  | n + 1, c :: rest => cls c && repMatch cls n rest

/-- The transaction-code shape test of the source: exactly ten ASCII
letters or digits. -/
def txRegexTest (tx : List Char) : Bool := repMatch isAlnumChar 10 tx

/-- The TX_FORMAT check at the head of getReceiptCanonical. -/
def validateTransactionId (tx : List Char) : Except PipeError Unit :=
  if txRegexTest tx then .ok () else .error .txFormat

/-- Result of the external WHATWG URL parser as assertAllowedHost reads
it: the normalized protocol (with trailing colon) and hostname. -/
structure JsUrl where
  protocol : List Char
  hostname : List Char
deriving DecidableEq, Repr

/-- The fixed allow-list of the source. -/
def ALLOWED_HOSTS : List (List Char) := ["transactioninfo.ethiotelecom.et".toList]

/-- assertAllowedHost from the source, over the parse result of the
external URL parser (none when new URL throws). -/
def assertAllowedHost (parsed : Option JsUrl) : Except PipeError Unit :=
  match parsed with
  | none => .error .invalidUrl
  | some u =>
    if !(u.protocol = "http:".toList || u.protocol = "https:".toList) then
      .error .invalidProtocol
    else if !(ALLOWED_HOSTS.contains u.hostname) then .error .hostNotAllowed
    else .ok ()

/-- Inputs of extractTxFromUrl as read off the parsed URL: the pathname
and the first values of the tx and id query parameters. -/
structure JsUrlPath where
  pathname : List Char
  txParam : Option (List Char)
  idParam : Option (List Char)
deriving DecidableEq, Repr

/-- The path segments: pathname split on slash, empty segments
dropped. -/
def pathPartsOf (u : JsUrlPath) : List (List Char) :=
  (splitOnChar '/' u.pathname).filter (fun t => t ≠ [])

/-- extractTxFromUrl from the source: the receipt path pattern first,
then the tx or id query parameter, then the last path segment; null on
an unparsable URL. -/
def extractTxFromUrl (parsed : Option JsUrlPath) : Option (List Char) :=
  match parsed with
  | none => none
  | some u =>
    let pathParts := pathPartsOf u
    if 2 ≤ pathParts.length && pathParts[0]? = some "receipt".toList then
      pathParts[1]?
    else
      let t := if truthyO u.txParam then u.txParam else u.idParam
      if truthyO t then t
      else pathParts.getLast?

/-- The spec's wording of the recovery order: a path of the form
receipt slash id, else a query parameter named tx or id, else the final
path segment. -/
def extractTxSpec (u : JsUrlPath) : Option (List Char) :=
  match pathPartsOf u with
  | seg0 :: seg1 :: _ =>
    if seg0 = "receipt".toList then some seg1 else extractTxSpecFallback u
  | _ => extractTxSpecFallback u
where
  /-- Steps b and c of the spec's order. -/
  extractTxSpecFallback (u : JsUrlPath) : Option (List Char) :=
    if truthyO u.txParam then u.txParam
    else if truthyO u.idParam then u.idParam
    else (pathPartsOf u).getLast?

/-! ## Helper lemmas -/

/-- Characterization of the anchored class-repetition match: it holds
exactly on lists of the stated length whose members all satisfy the
class. -/
theorem repMatch_iff (cls : Char → Bool) (n : Nat) (l : List Char) :
    repMatch cls n l = true ↔ (l.length = n ∧ ∀ c ∈ l, cls c = true) := by
  induction n generalizing l with
  | zero => cases l <;> simp [repMatch]
  | succ n ih =>
    cases l with
    | nil => simp [repMatch]
    | cons c rest =>
      simp only [repMatch, Bool.and_eq_true, ih, List.length_cons,
        List.forall_mem_cons, Nat.succ.injEq]
      tauto

/-- The TX_FORMAT gate succeeds exactly on ten ASCII letters or
digits. -/
theorem validateTx_ok_iff (tx : List Char) :
    validateTransactionId tx = .ok () ↔
      (tx.length = 10 ∧ ∀ c ∈ tx, isAlnumChar c = true) := by
  rw [← repMatch_iff isAlnumChar 10 tx]
  unfold validateTransactionId txRegexTest
  by_cases h : repMatch isAlnumChar 10 tx = true <;> simp [h]

/-! ## Claims -/

/-- C1: for every resolved canonical record, the acceptance gate
succeeds exactly when invoiceNo, settledAmount and
creditedPartyAccountNo are all present (non-empty); every failure is
PARSE_FAIL carrying the boolean presence flag of each of the three
fields; and a record missing creditedPartyAccountNo always fails with
hasCreditedPartyAccountNo false, whatever the other fields hold. -/
theorem acceptanceGate_presence (c : Canonical) :
    (exceptOk (acceptanceGate c) = true ↔
      (truthyS c.invoiceNo = true ∧ truthyO c.settledAmount = true ∧
       truthyO c.creditedPartyAccountNo = true)) ∧
    (∀ e, acceptanceGate c = .error e →
      e = .parseFail
        { hasInvoiceNo := truthyS c.invoiceNo
          hasSettledAmount := truthyO c.settledAmount
          hasCreditedPartyAccountNo := truthyO c.creditedPartyAccountNo }) ∧
    (truthyO c.creditedPartyAccountNo = false →
      acceptanceGate c = .error (.parseFail
        { hasInvoiceNo := truthyS c.invoiceNo
          hasSettledAmount := truthyO c.settledAmount
          hasCreditedPartyAccountNo := false })) := by
  cases hI : truthyS c.invoiceNo <;> cases hS : truthyO c.settledAmount <;>
    cases hC : truthyO c.creditedPartyAccountNo <;>
      simp [acceptanceGate, exceptOk, hI, hS, hC]

/-- Witness for C1 at a concrete record missing the credited-party
account number. -/
theorem acceptanceGate_presence_witness :
    acceptanceGate
      { payerName := none, payerNameParts := none, payerTelebirrNo := none
        creditedPartyName := none, creditedPartyNameParts := none
        creditedPartyAccountNo := none, transactionStatus := none
        invoiceNo := "ABC123XYZ9".toList, paymentDate := none
        settledAmount := some "500.00".toList, rawData := [] } =
      .error (.parseFail
        { hasInvoiceNo := true, hasSettledAmount := true
          hasCreditedPartyAccountNo := false }) :=
  (acceptanceGate_presence _).2.2 (by decide)

/-- C2: transaction-identifier validation succeeds exactly on strings
of ten ASCII letters or digits; anything else fails TX_FORMAT; mixed
case passes untouched (no normalization). -/
theorem validateTransactionId_shape :
    (∀ tx : List Char, validateTransactionId tx = .ok () ↔
      (tx.length = 10 ∧ ∀ c ∈ tx, isAlnumChar c = true)) ∧
    (∀ tx : List Char, ¬ (tx.length = 10 ∧ ∀ c ∈ tx, isAlnumChar c = true) →
      validateTransactionId tx = .error .txFormat) ∧
    validateTransactionId "aB3dE5gH7j".toList = .ok () := by
  refine ⟨validateTx_ok_iff, ?_, by decide⟩
  intro tx h
  have h2 := (validateTx_ok_iff tx).not.mpr h
  unfold validateTransactionId at h2 ⊢
  by_cases hr : txRegexTest tx = true
  · simp [hr] at h2
  · simp [hr]

/-- Witness for C2 at a concrete rejected identifier. -/
theorem validateTransactionId_shape_witness :
    validateTransactionId "aB3dE5gH7".toList = .error .txFormat :=
  validateTransactionId_shape.2.1 _ (by decide)

/-- C3: the URL safety gate fails INVALID_URL exactly on an unparsable
URL; a parsed URL fails INVALID_PROTOCOL unless the scheme is http or
https, fails HOST_NOT_ALLOWED unless the hostname is an exact member of
the fixed allow-list (case-sensitive, no subdomain matching), and
succeeds otherwise. -/
theorem assertAllowedHost_cases :
    (assertAllowedHost none = .error .invalidUrl) ∧
    (∀ u : JsUrl, assertAllowedHost (some u) ≠ .error .invalidUrl) ∧
    (∀ u : JsUrl, assertAllowedHost (some u) = .ok () ↔
      ((u.protocol = "http:".toList ∨ u.protocol = "https:".toList) ∧
       u.hostname ∈ ALLOWED_HOSTS)) ∧
    (∀ u : JsUrl, ¬ (u.protocol = "http:".toList ∨ u.protocol = "https:".toList) →
      assertAllowedHost (some u) = .error .invalidProtocol) ∧
    (∀ u : JsUrl, (u.protocol = "http:".toList ∨ u.protocol = "https:".toList) →
      u.hostname ∉ ALLOWED_HOSTS →
      assertAllowedHost (some u) = .error .hostNotAllowed) ∧
    (assertAllowedHost
      (some ⟨"https:".toList, "TRANSACTIONINFO.ETHIOTELECOM.ET".toList⟩) =
      .error .hostNotAllowed) ∧
    (assertAllowedHost
      (some ⟨"https:".toList, "sub.transactioninfo.ethiotelecom.et".toList⟩) =
      .error .hostNotAllowed) := by
  have e1 : "http:".toList = ['h', 't', 't', 'p', ':'] := rfl
  have e2 : "https:".toList = ['h', 't', 't', 'p', 's', ':'] := rfl
  have key : ∀ u : JsUrl, assertAllowedHost (some u) =
      (if u.protocol = "http:".toList ∨ u.protocol = "https:".toList then
        (if u.hostname ∈ ALLOWED_HOSTS then .ok () else .error .hostNotAllowed)
      else .error .invalidProtocol) := by
    intro u
    unfold assertAllowedHost
    by_cases h1 : u.protocol = ['h', 't', 't', 'p', ':'] <;>
      by_cases h2 : u.protocol = ['h', 't', 't', 'p', 's', ':'] <;>
        by_cases hh : u.hostname ∈ ALLOWED_HOSTS <;>
          simp [e1, e2, h1, h2, hh, List.elem_iff, List.contains]
  refine ⟨rfl, ?_, ?_, ?_, ?_, by decide, by decide⟩ <;> intro u <;> rw [key] <;>
    simp only [e1, e2] <;>
    by_cases h1 : u.protocol = ['h', 't', 't', 'p', ':'] <;>
      by_cases h2 : u.protocol = ['h', 't', 't', 'p', 's', ':'] <;>
        by_cases hh : u.hostname ∈ ALLOWED_HOSTS <;>
          simp [h1, h2, hh]

/-- Witness for C3 at a concrete disallowed host with an allowed
scheme. -/
theorem assertAllowedHost_cases_witness :
    assertAllowedHost (some ⟨"https:".toList, "evil.example".toList⟩) =
      .error .hostNotAllowed :=
  assertAllowedHost_cases.2.2.2.2.1 _ (Or.inr rfl) (by decide)

/-- Tokens produced by the filtered split are never empty. -/
theorem nameTokens_ne_nil (s : List Char) : ∀ t ∈ nameTokens s, t ≠ [] := by
  intro t ht
  have := List.of_mem_filter ht
  simpa using this

/-- C8: transaction-identifier recovery from a URL follows the spec's
order (receipt path pattern, then tx or id query parameter, then final
path segment), yields null for an unparsable URL, and on a parsed URL
yields null only when the path is empty. -/
theorem extractTxFromUrl_order :
    (∀ u : JsUrlPath, extractTxFromUrl (some u) = extractTxSpec u) ∧
    (extractTxFromUrl none = none) ∧
    (∀ u : JsUrlPath, extractTxFromUrl (some u) = none → pathPartsOf u = []) := by
  have fall : ∀ u : JsUrlPath,
      (if truthyO (if truthyO u.txParam then u.txParam else u.idParam) then
        (if truthyO u.txParam then u.txParam else u.idParam)
      else (pathPartsOf u).getLast?) = extractTxSpec.extractTxSpecFallback u := by
    intro u
    unfold extractTxSpec.extractTxSpecFallback
    cases htx : truthyO u.txParam <;> cases hid : truthyO u.idParam <;>
      simp [htx, hid]
  have fallNone : ∀ u : JsUrlPath,
      extractTxSpec.extractTxSpecFallback u = none → (pathPartsOf u).getLast? = none := by
    intro u h
    unfold extractTxSpec.extractTxSpecFallback at h
    by_cases htx : truthyO u.txParam = true
    · rw [if_pos htx] at h
      cases hx : u.txParam with
      | none => rw [hx] at htx; simp [truthyO] at htx
      | some v => rw [hx] at h; simp at h
    · rw [if_neg htx] at h
      by_cases hid : truthyO u.idParam = true
      · rw [if_pos hid] at h
        cases hx : u.idParam with
        | none => rw [hx] at hid; simp [truthyO] at hid
        | some v => rw [hx] at h; simp at h
      · rwa [if_neg hid] at h
  have er : "receipt".toList = ['r', 'e', 'c', 'e', 'i', 'p', 't'] := rfl
  have main : ∀ u : JsUrlPath, extractTxFromUrl (some u) = extractTxSpec u := by
    intro u
    unfold extractTxFromUrl extractTxSpec
    cases hp : pathPartsOf u with
    | nil => simpa [hp] using fall u
    | cons s0 rest =>
      cases rest with
      | nil => simpa [hp] using fall u
      | cons s1 r2 =>
        by_cases h0 : s0 = ['r', 'e', 'c', 'e', 'i', 'p', 't']
        · simp [hp, er, h0]
        · simpa [hp, er, h0] using fall u
  refine ⟨main, rfl, ?_⟩
  intro u h
  rw [main u] at h
  unfold extractTxSpec at h
  split at h
  · split at h
    · simp at h
    · exact List.getLast?_eq_none_iff.mp (fallNone u h)
  · exact List.getLast?_eq_none_iff.mp (fallNone u h)

/-- Witness for C8: the empty-path case of the null characterization at
a concrete parsed URL. -/
theorem extractTxFromUrl_order_witness :
    pathPartsOf ⟨"/".toList, none, none⟩ = [] :=
  extractTxFromUrl_order.2.2 ⟨"/".toList, none, none⟩ (by decide)

/-- C9: name segmentation returns null exactly on an empty cleaned
input; otherwise token one is first, token two father, token three
grandfather, the remaining tokens joined are rest (absent when there
are none), and full is the re-joined token sequence; with the three
concrete examples of the spec. -/
theorem parseEthiopianName_positions :
    (∀ s, parseEthiopianName s = none ↔ cleanText s = []) ∧
    (∀ s, cleanText s ≠ [] →
      parseEthiopianName s = some
        { full := joinSpace (nameTokens s)
          first := (nameTokens s)[0]?
          father := (nameTokens s)[1]?
          grandfather := (nameTokens s)[2]?
          rest := if (nameTokens s).drop 3 = [] then none
                  else some (joinSpace ((nameTokens s).drop 3)) }) ∧
    (parseEthiopianName "Abebe Kebede Tesfaye".toList = some
      { full := "Abebe Kebede Tesfaye".toList, first := some "Abebe".toList
        father := some "Kebede".toList, grandfather := some "Tesfaye".toList
        rest := none }) ∧
    (parseEthiopianName "Abebe".toList = some
      { full := "Abebe".toList, first := some "Abebe".toList
        father := none, grandfather := none, rest := none }) ∧
    parseEthiopianName "".toList = none := by
  have tok : ∀ (s : List Char) (i : Nat),
      orNull (nameTokens s)[i]? = (nameTokens s)[i]? := by
    intro s i
    cases h : (nameTokens s)[i]? with
    | none => rfl
    | some t =>
      have ht : t ≠ [] := nameTokens_ne_nil s t (List.getElem?_mem h)
      simp [orNull, ht]
  refine ⟨?_, ?_, by decide, by decide, by decide⟩
  · intro s
    unfold parseEthiopianName
    by_cases h : cleanText s = [] <;> simp [h]
  · intro s h
    unfold parseEthiopianName
    rw [if_neg h]
    have e : (splitOnChar ' ' (cleanText s)).filter (fun t => t ≠ []) = nameTokens s := rfl
    rw [e]
    by_cases hd : (nameTokens s).drop 3 = [] <;>
      simp [tok s 0, tok s 1, tok s 2, hd]

/-- Witness for C9 at a concrete two-token name. -/
theorem parseEthiopianName_positions_witness :
    parseEthiopianName "Abebe Kebede".toList = some
      { full := joinSpace (nameTokens "Abebe Kebede".toList)
        first := (nameTokens "Abebe Kebede".toList)[0]?
        father := (nameTokens "Abebe Kebede".toList)[1]?
        grandfather := (nameTokens "Abebe Kebede".toList)[2]?
        rest := if (nameTokens "Abebe Kebede".toList).drop 3 = [] then none
                else some (joinSpace ((nameTokens "Abebe Kebede".toList).drop 3)) } :=
  parseEthiopianName_positions.2.1 _ (by decide)

/-! ## Refinement of the raw pair extractor (C4) -/

/-- All stored values of an accumulator are non-empty: the invariant of
the extractor's accumulator, since only truthy values are stored. -/
def goodVals (raw : List (List Char × List Char)) : Prop := ∀ p ∈ raw, p.2 ≠ []

/-- A successful first lookup points at a stored pair with that key. -/
theorem lookupL_mem {k w : List Char} :
    ∀ {raw : List (List Char × List Char)}, lookupL k raw = some w → (k, w) ∈ raw := by
  intro raw
  induction raw with
  | nil => intro h; cases h
  | cons p rest ih =>
    intro h
    cases p with
    | mk k' v' =>
      unfold lookupL at h
      by_cases hk : k' = k
      · rw [if_pos hk] at h
        subst hk
        simp at h
        simp [h]
      · rw [if_neg hk] at h
        exact List.mem_cons_of_mem _ (ih h)

/-- Assignment to an absent key appends it. -/
theorem setKey_absent (k v : List Char) :
    ∀ raw, lookupL k raw = none → setKey k v raw = raw ++ [(k, v)] := by
  intro raw
  induction raw with
  | nil => intro _; rfl
  | cons p rest ih =>
    intro h
    cases p with
    | mk k' v' =>
      unfold lookupL at h
      by_cases hk : k' = k
      · rw [if_pos hk] at h; cases h
      · rw [if_neg hk] at h
        unfold setKey
        rw [if_neg hk, ih h]
        rfl

/-- Under the non-empty-values invariant, the source's conditional
assignment coincides with the spec's first-wins insertion. -/
theorem storePair_eq_insFirst {raw : List (List Char × List Char)} {k v : List Char}
    (hg : goodVals raw) (_hv : v ≠ []) : storePair raw k v = insFirst raw (k, v) := by
  unfold storePair insFirst
  cases hl : lookupL k raw with
  | none => simp [hl, setKey_absent k v raw hl]
  | some w =>
    have hw : w ≠ [] := hg (k, w) (lookupL_mem hl)
    simp [hl, hw]

/-- First-wins insertion preserves the invariant. -/
theorem goodVals_insFirst {raw : List (List Char × List Char)}
    {p : List Char × List Char} (hg : goodVals raw) (hv : p.2 ≠ []) :
    goodVals (insFirst raw p) := by
  unfold insFirst
  by_cases hl : (lookupL p.1 raw).isSome
  · simpa [hl] using hg
  · intro q hq
    rw [if_neg hl] at hq
    rcases List.mem_append.mp hq with h | h
    · exact hg q h
    · simp at h
      rw [h]
      exact hv

/-- The inner pair fold of a row equals the first-wins fold of the
filtered pair list, and preserves the invariant. -/
theorem chunkFold_eq :
    ∀ (ps : List (List Char × List Char)) raw, goodVals raw →
      (ps.foldl (fun r p => if p.1 = [] || p.2 = [] then r
          else storePair r p.1 p.2) raw
        = (ps.filter (fun p => p.1 ≠ [] && p.2 ≠ [])).foldl insFirst raw)
      ∧ goodVals (ps.foldl (fun r p => if p.1 = [] || p.2 = [] then r
          else storePair r p.1 p.2) raw) := by
  intro ps
  induction ps with
  | nil => intro raw hg; exact ⟨rfl, hg⟩
  | cons p rest ih =>
    intro raw hg
    by_cases h1 : p.1 = []
    · have := ih raw hg
      simpa [h1] using this
    · by_cases h2 : p.2 = []
      · have := ih raw hg
        simpa [h1, h2] using this
      · have hs : storePair raw p.1 p.2 = insFirst raw p :=
          storePair_eq_insFirst hg h2
        have hg2 : goodVals (insFirst raw p) := goodVals_insFirst hg h2
        have := ih (insFirst raw p) hg2
        simpa [h1, h2, hs] using this

/-- A row's contribution in the source equals the first-wins fold of
its spec pair list, and preserves the invariant. -/
theorem processRowSrc_eq (raw : List (List Char × List Char))
    (cells : List (List Char)) (hg : goodVals raw) :
    processRowSrc raw cells = (rowPairsSpec cells).foldl insFirst raw
    ∧ goodVals (processRowSrc raw cells) := by
  unfold processRowSrc rowPairsSpec
  by_cases hlen : cells.length < 2
  · simp only [if_pos hlen]
    exact ⟨rfl, hg⟩
  · simp only [if_neg hlen]
    exact chunkFold_eq _ raw hg

/-- The document fold of the source equals the first-wins fold of the
concatenated spec pair lists. -/
theorem docFold_eq :
    ∀ (doc : List (List (List Char))) raw, goodVals raw →
      doc.foldl processRowSrc raw = (doc.flatMap rowPairsSpec).foldl insFirst raw := by
  intro doc
  induction doc with
  | nil => intro raw _; rfl
  | cons row doc' ih =>
    intro raw hg
    have h := processRowSrc_eq raw row hg
    simp only [List.foldl_cons, List.flatMap_cons, List.foldl_append]
    rw [← h.1]
    exact ih (processRowSrc raw row) h.2

/-- C4: the raw pair extractor is exactly the spec's algorithm -- rows
with fewer than two cells skipped, cells paired consecutively with a
trailing cell discarded, pairs with an empty side skipped, and the
first value seen for a label kept across the whole document -- and on
the spec's duplicate-label example only the first value is retained. -/
theorem extractReceiptRawPairs_spec :
    (∀ doc, extractReceiptRawPairs doc = rawPairsSpec doc) ∧
    extractReceiptRawPairs
      [["Payer Name".toList, "Abebe Kebede".toList],
       ["Payer Name".toList, "Duplicate Value".toList]] =
      [("Payer Name".toList, "Abebe Kebede".toList)] := by
  refine ⟨?_, by decide⟩
  intro doc
  unfold extractReceiptRawPairs rawPairsSpec firstWins
  exact docFold_eq doc [] (by intro p hp; cases hp)

/-! ## Idempotence analysis of cleanText (C7) -/

/-- The last character is a colon. -/
def endsColonB : List Char → Bool
  | [] => false
  | [c] => isColonChar c
  | _ :: c :: rest => endsColonB (c :: rest)

/-- The last character is whitespace. -/
def endsWsB : List Char → Bool
  | [] => false
  | [c] => isJsWhitespace c
  | _ :: c :: rest => endsWsB (c :: rest)

/-- Every whitespace character of the list is a plain space. -/
def wsOnlySpace (l : List Char) : Prop :=
  ∀ d ∈ l, isJsWhitespace d = true → d = ' '

/-- The whitespace-mapping stage leaves only plain spaces as
whitespace. -/
theorem wsToSpace_prop (x : Char) :
    isJsWhitespace (wsToSpace x) = true → wsToSpace x = ' ' := by
  unfold wsToSpace
  by_cases h : isJsWhitespace x = true
  · intro _
    rw [if_pos h]
  · rw [if_neg h]
    intro hx
    exact absurd hx h

/-- The mapped list of cleanText's first two stages has only plain
spaces as whitespace. -/
theorem wsOnlySpace_mapped (l : List Char) :
    wsOnlySpace (l.map (fun c => wsToSpace (nbspToSpace c))) := by
  intro d hd
  rcases List.mem_map.mp hd with ⟨c, _, rfl⟩
  exact wsToSpace_prop _

/-- Members of the squeezed list are members of the list. -/
theorem mem_squeeze : ∀ (l : List Char) (c : Char), c ∈ squeeze l → c ∈ l := by
  intro l
  induction l with
  | nil => intro c h; exact h
  | cons a rest ih =>
    cases rest with
    | nil => intro c h; exact h
    | cons b r2 =>
      intro c h
      unfold squeeze at h
      by_cases hab : (a = ' ' && b = ' ') = true
      · rw [if_pos hab] at h
        exact List.mem_cons_of_mem _ (ih c h)
      · rw [if_neg hab] at h
        rcases List.mem_cons.mp h with rfl | h2
        · exact List.mem_cons_self _ _
        · exact List.mem_cons_of_mem _ (ih c h2)

/-- Members of the colon-stripped list are members of the list. -/
theorem mem_stripTC : ∀ (l : List Char) (c : Char),
    c ∈ stripTrailingColons l → c ∈ l := by
  intro l
  induction l with
  | nil => intro c h; exact h
  | cons a rest ih =>
    intro c h
    unfold stripTrailingColons at h
    by_cases hc : (stripTrailingColons rest = [] && isColonChar a) = true
    · rw [if_pos hc] at h; cases h
    · rw [if_neg hc] at h
      rcases List.mem_cons.mp h with rfl | h2
      · exact List.mem_cons_self _ _
      · exact List.mem_cons_of_mem _ (ih c h2)

/-- Members of the right-trimmed list are members of the list. -/
theorem mem_trimRight : ∀ (l : List Char) (c : Char), c ∈ trimRight l → c ∈ l := by
  intro l
  induction l with
  | nil => intro c h; exact h
  | cons a rest ih =>
    intro c h
    unfold trimRight at h
    by_cases hc : (trimRight rest = [] && isJsWhitespace a) = true
    · rw [if_pos hc] at h; cases h
    · rw [if_neg hc] at h
      rcases List.mem_cons.mp h with rfl | h2
      · exact List.mem_cons_self _ _
      · exact List.mem_cons_of_mem _ (ih c h2)

/-- Members after dropWhile are members of the list. -/
theorem mem_dropWhileL (p : Char → Bool) :
    ∀ (l : List Char) (c : Char), c ∈ l.dropWhile p → c ∈ l := by
  intro l
  induction l with
  | nil => intro c h; exact h
  | cons a rest ih =>
    intro c h
    rw [List.dropWhile_cons] at h
    by_cases hp : p a = true
    · rw [if_pos hp] at h
      exact List.mem_cons_of_mem _ (ih c h)
    · rw [if_neg hp] at h
      exact h

/-- The cleaned text has only plain spaces as whitespace. -/
theorem wsOnlySpace_cleanText (l : List Char) : wsOnlySpace (cleanText l) := by
  intro d hd hws
  unfold cleanText trimWs at hd
  exact wsOnlySpace_mapped l d
    (mem_squeeze _ d (mem_stripTC _ d (mem_trimRight _ d (mem_dropWhileL _ _ d hd))))
    hws

/-- No two adjacent spaces. -/
def noDbl : List Char → Bool
  | a :: b :: rest => !(a = ' ' && b = ' ') && noDbl (b :: rest)
  | _ => true

/-- Squeezing keeps the head. -/
theorem squeeze_head : ∀ l : List Char, (squeeze l).head? = l.head? := by
  intro l
  induction l with
  | nil => rfl
  | cons a rest ih =>
    cases rest with
    | nil => rfl
    | cons b r2 =>
      unfold squeeze
      by_cases hab : (a = ' ' && b = ' ') = true
      · rw [if_pos hab, ih]
        have h2 := hab
        simp only [Bool.and_eq_true, decide_eq_true_eq] at h2
        rw [h2.1, h2.2]
        rfl
      · rw [if_neg hab]
        rfl

/-- A tail of a no-double-space list has no double space. -/
theorem noDbl_tail (a : Char) (l : List Char) :
    noDbl (a :: l) = true → noDbl l = true := by
  cases l with
  | nil => intro _; rfl
  | cons b r =>
    intro h
    unfold noDbl at h
    exact (Bool.and_eq_true _ _ |>.mp h).2

/-- The squeezed list has no double space. -/
theorem noDbl_squeeze : ∀ l : List Char, noDbl (squeeze l) = true := by
  intro l
  induction l with
  | nil => rfl
  | cons a rest ih =>
    cases rest with
    | nil => rfl
    | cons b r2 =>
      unfold squeeze
      by_cases hab : (a = ' ' && b = ' ') = true
      · rw [if_pos hab]
        exact ih
      · rw [if_neg hab]
        cases hs : squeeze (b :: r2) with
        | nil => rfl
        | cons x xs =>
          have hx : x = b := by
            have h := squeeze_head (b :: r2)
            rw [hs] at h
            simpa using h
          rw [hs] at ih
          rw [hx] at ih ⊢
          have hf : (a = ' ' && b = ' ') = false := by
            simpa using hab
          unfold noDbl
          rw [hf]
          simpa using ih

/-- A no-double-space list is fixed by squeezing. -/
theorem squeeze_fix : ∀ l : List Char, noDbl l = true → squeeze l = l := by
  intro l
  induction l with
  | nil => intro _; rfl
  | cons a rest ih =>
    cases rest with
    | nil => intro _; rfl
    | cons b r2 =>
      intro h
      unfold noDbl at h
      have h' := Bool.and_eq_true _ _ |>.mp h
      have hf : ¬((a = ' ' && b = ' ') = true) := by
        intro hcond
        have hb := h'.1
        rw [hcond] at hb
        simp at hb
      unfold squeeze
      rw [if_neg hf, ih h'.2]

/-- Stripping trailing colons keeps the head when non-empty. -/
theorem stripTC_head : ∀ l : List Char,
    stripTrailingColons l = [] ∨ (stripTrailingColons l).head? = l.head? := by
  intro l
  cases l with
  | nil => exact Or.inl rfl
  | cons a rest =>
    unfold stripTrailingColons
    by_cases hc : (stripTrailingColons rest = [] && isColonChar a) = true
    · rw [if_pos hc]
      exact Or.inl rfl
    · rw [if_neg hc]
      exact Or.inr rfl

/-- Right trimming keeps the head when non-empty. -/
theorem trimRight_head : ∀ l : List Char,
    trimRight l = [] ∨ (trimRight l).head? = l.head? := by
  intro l
  cases l with
  | nil => exact Or.inl rfl
  | cons a rest =>
    unfold trimRight
    by_cases hc : (trimRight rest = [] && isJsWhitespace a) = true
    · rw [if_pos hc]
      exact Or.inl rfl
    · rw [if_neg hc]
      exact Or.inr rfl

/-- A cons extension of a no-double-space list whose heads are not both
spaces has no double space. -/
theorem noDbl_cons_of (a : Char) (l : List Char)
    (h1 : ∀ x, l.head? = some x → (a = ' ' && x = ' ') = false)
    (h2 : noDbl l = true) : noDbl (a :: l) = true := by
  cases l with
  | nil => rfl
  | cons x xs =>
    unfold noDbl
    rw [h1 x rfl]
    simpa using h2

/-- Stripping trailing colons preserves the no-double-space property. -/
theorem noDbl_stripTC : ∀ l : List Char,
    noDbl l = true → noDbl (stripTrailingColons l) = true := by
  intro l
  induction l with
  | nil => intro _; rfl
  | cons a rest ih =>
    intro h
    unfold stripTrailingColons
    by_cases hc : (stripTrailingColons rest = [] && isColonChar a) = true
    · rw [if_pos hc]; rfl
    · rw [if_neg hc]
      refine noDbl_cons_of a _ ?_ (ih (noDbl_tail a rest h))
      intro x hx
      rcases stripTC_head rest with he | hh
      · rw [he] at hx; cases hx
      · rw [hh] at hx
        cases rest with
        | nil => cases hx
        | cons y ys =>
          have hxy : y = x := by simpa using hx
          unfold noDbl at h
          have hh2 := (Bool.and_eq_true _ _ |>.mp h).1
          have hd : (a = ' ' && y = ' ') = false := by
            cases hq : (a = ' ' && y = ' ')
            · rfl
            · rw [hq] at hh2
              simp at hh2
          rw [← hxy]
          exact hd

/-- Right trimming preserves the no-double-space property. -/
theorem noDbl_trimRight : ∀ l : List Char,
    noDbl l = true → noDbl (trimRight l) = true := by
  intro l
  induction l with
  | nil => intro _; rfl
  | cons a rest ih =>
    intro h
    unfold trimRight
    by_cases hc : (trimRight rest = [] && isJsWhitespace a) = true
    · rw [if_pos hc]; rfl
    · rw [if_neg hc]
      refine noDbl_cons_of a _ ?_ (ih (noDbl_tail a rest h))
      intro x hx
      rcases trimRight_head rest with he | hh
      · rw [he] at hx; cases hx
      · rw [hh] at hx
        cases rest with
        | nil => cases hx
        | cons y ys =>
          have hxy : y = x := by simpa using hx
          unfold noDbl at h
          have hh2 := (Bool.and_eq_true _ _ |>.mp h).1
          have hd : (a = ' ' && y = ' ') = false := by
            cases hq : (a = ' ' && y = ' ')
            · rfl
            · rw [hq] at hh2
              simp at hh2
          rw [← hxy]
          exact hd

/-- dropWhile preserves the no-double-space property. -/
theorem noDbl_dropWhile (p : Char → Bool) : ∀ l : List Char,
    noDbl l = true → noDbl (l.dropWhile p) = true := by
  intro l
  induction l with
  | nil => intro _; rfl
  | cons a rest ih =>
    intro h
    rw [List.dropWhile_cons]
    by_cases hp : p a = true
    · rw [if_pos hp]
      exact ih (noDbl_tail a rest h)
    · rw [if_neg hp]
      exact h

/-- The cleaned text has no double space. -/
theorem noDbl_cleanText (l : List Char) : noDbl (cleanText l) = true := by
  unfold cleanText trimWs
  exact noDbl_dropWhile _ _ (noDbl_trimRight _ (noDbl_stripTC _ (noDbl_squeeze _)))

/-- A list not ending in a colon is fixed by the colon strip. -/
theorem stripTC_fix : ∀ l : List Char,
    endsColonB l = false → stripTrailingColons l = l := by
  intro l
  induction l with
  | nil => intro _; rfl
  | cons a rest ih =>
    intro h
    cases rest with
    | nil =>
      unfold endsColonB at h
      unfold stripTrailingColons
      rw [if_neg (by simp [h])]
      rfl
    | cons b r2 =>
      have h2 : endsColonB (b :: r2) = false := h
      have ht := ih h2
      unfold stripTrailingColons
      rw [ht]
      rw [if_neg (by simp)]

/-- A list not ending in whitespace is fixed by the right trim. -/
theorem trimRight_fix : ∀ l : List Char,
    endsWsB l = false → trimRight l = l := by
  intro l
  induction l with
  | nil => intro _; rfl
  | cons a rest ih =>
    intro h
    cases rest with
    | nil =>
      unfold endsWsB at h
      unfold trimRight
      rw [if_neg (by simp [h])]
      rfl
    | cons b r2 =>
      have h2 : endsWsB (b :: r2) = false := h
      have ht := ih h2
      unfold trimRight
      rw [ht]
      rw [if_neg (by simp)]

/-- A list whose head does not satisfy the predicate is fixed by
dropWhile. -/
theorem dropWhile_fix (p : Char → Bool) (l : List Char)
    (h : ∀ c, l.head? = some c → p c = false) : l.dropWhile p = l := by
  cases l with
  | nil => rfl
  | cons a rest =>
    rw [List.dropWhile_cons, if_neg (by simp [h a rfl])]

/-- The head of a dropWhile result does not satisfy the predicate. -/
theorem dropWhile_head (p : Char → Bool) : ∀ (l : List Char) (c : Char),
    (l.dropWhile p).head? = some c → p c = false := by
  intro l
  induction l with
  | nil => intro c h; cases h
  | cons a rest ih =>
    intro c h
    rw [List.dropWhile_cons] at h
    by_cases hp : p a = true
    · rw [if_pos hp] at h
      exact ih c h
    · rw [if_neg hp] at h
      have hc : a = c := by simpa using h
      rw [← hc]
      simpa using hp

/-- The right trim never ends in whitespace. -/
theorem endsWsB_trimRight : ∀ l : List Char, endsWsB (trimRight l) = false := by
  intro l
  induction l with
  | nil => rfl
  | cons a rest ih =>
    unfold trimRight
    by_cases hc : (trimRight rest = [] && isJsWhitespace a) = true
    · rw [if_pos hc]; rfl
    · rw [if_neg hc]
      cases htr : trimRight rest with
      | nil =>
        unfold endsWsB
        have : isJsWhitespace a = false := by
          cases hq : isJsWhitespace a
          · rfl
          · exact absurd (by simp [htr, hq]) hc
        exact this
      | cons x xs =>
        rw [htr] at ih
        exact ih

/-- dropWhile preserves not-ending-in-whitespace. -/
theorem endsWsB_dropWhile (p : Char → Bool) : ∀ l : List Char,
    endsWsB l = false → endsWsB (l.dropWhile p) = false := by
  intro l
  induction l with
  | nil => intro _; rfl
  | cons a rest ih =>
    intro h
    rw [List.dropWhile_cons]
    by_cases hp : p a = true
    · rw [if_pos hp]
      cases rest with
      | nil => rfl
      | cons b r2 => exact ih h
    · rw [if_neg hp]
      exact h

/-- The cleaned text never ends in whitespace. -/
theorem endsWsB_cleanText (l : List Char) : endsWsB (cleanText l) = false := by
  unfold cleanText trimWs
  exact endsWsB_dropWhile _ _ (endsWsB_trimRight _)

/-- The whitespace-mapping stages fix a list whose whitespace is only
plain spaces. -/
theorem map_stage_fix : ∀ l : List Char, wsOnlySpace l →
    l.map (fun c => wsToSpace (nbspToSpace c)) = l := by
  intro l
  induction l with
  | nil => intro _; rfl
  | cons a rest ih =>
    intro h
    have ha : wsToSpace (nbspToSpace a) = a := by
      by_cases hw : isJsWhitespace a = true
      · have hsp : a = ' ' := h a (List.mem_cons_self _ _) hw
        rw [hsp]
        rfl
      · have h160 : ¬(a.toNat = 160) := by
          intro h1
          apply hw
          unfold isJsWhitespace
          simp [h1]
        unfold nbspToSpace
        rw [if_neg h160]
        unfold wsToSpace
        rw [if_neg hw]
    have hr : wsOnlySpace rest := fun d hd => h d (List.mem_cons_of_mem _ hd)
    simp only [List.map_cons, ha, ih hr]

/-- The cleaned text is fixed by trimming. -/
theorem trimWs_cleanText_fix (s : List Char) : trimWs (cleanText s) = cleanText s := by
  unfold trimWs
  rw [trimRight_fix _ (endsWsB_cleanText s)]
  refine dropWhile_fix _ _ ?_
  intro c hc
  unfold cleanText trimWs at hc
  exact dropWhile_head _ _ c hc

/-- Application of cleanText to its own output reduces to the strip and
trim stages. -/
theorem cleanText_self (s : List Char) :
    cleanText (cleanText s) = trimWs (stripTrailingColons (cleanText s)) := by
  have h1 : cleanText (cleanText s) =
      trimWs (stripTrailingColons (squeeze ((cleanText s).map
        (fun c => wsToSpace (nbspToSpace c))))) := rfl
  rw [h1, map_stage_fix _ (wsOnlySpace_cleanText s),
      squeeze_fix _ (noDbl_cleanText s)]

/-- A colon-ending list strictly shrinks under the colon strip. -/
theorem stripTC_lt : ∀ l : List Char, endsColonB l = true →
    (stripTrailingColons l).length < l.length := by
  intro l
  induction l with
  | nil => intro h; cases h
  | cons a rest ih =>
    intro h
    cases rest with
    | nil =>
      unfold endsColonB at h
      unfold stripTrailingColons
      rw [if_pos (by simp [stripTrailingColons, h])]
      simp
    | cons b r2 =>
      have h2 : endsColonB (b :: r2) = true := h
      have hlt := ih h2
      unfold stripTrailingColons
      by_cases hc : (stripTrailingColons (b :: r2) = [] && isColonChar a) = true
      · rw [if_pos hc]
        simp
      · rw [if_neg hc]
        simpa using Nat.succ_lt_succ hlt

/-- The right trim never lengthens. -/
theorem trimRight_le : ∀ l : List Char, (trimRight l).length ≤ l.length := by
  intro l
  induction l with
  | nil => exact Nat.le_refl _
  | cons a rest ih =>
    unfold trimRight
    by_cases hc : (trimRight rest = [] && isJsWhitespace a) = true
    · rw [if_pos hc]
      exact Nat.zero_le _
    · rw [if_neg hc]
      simpa using Nat.succ_le_succ ih

/-- dropWhile never lengthens. -/
theorem dropWhileL_le (p : Char → Bool) : ∀ l : List Char,
    (l.dropWhile p).length ≤ l.length := by
  intro l
  induction l with
  | nil => exact Nat.le_refl _
  | cons a rest ih =>
    rw [List.dropWhile_cons]
    by_cases hp : p a = true
    · rw [if_pos hp]
      exact Nat.le_trans ih (Nat.le_succ _)
    · rw [if_neg hp]

/-- C7 counterexample: cleanText is not idempotent -- a trailing colon
hidden behind trailing whitespace survives the first pass (the colon
strip runs before the trim) and is stripped by the second. -/
theorem cleanText_not_idempotent :
    cleanText (cleanText "a: ".toList) ≠ cleanText "a: ".toList := by decide

/-- C7 amended: cleanText (replace non-breaking spaces, collapse
whitespace runs, strip trailing colons, trim) is idempotent exactly on
the inputs whose cleaned result does not end in a colon character; in
particular a second application differs whenever a stripped-then-
trimmed input re-exposes a trailing colon. -/
theorem cleanText_idem_iff (s : List Char) :
    cleanText (cleanText s) = cleanText s ↔ endsColonB (cleanText s) = false := by
  constructor
  · intro h
    cases hq : endsColonB (cleanText s) with
    | false => rfl
    | true =>
      exfalso
      have hlt : (cleanText (cleanText s)).length < (cleanText s).length := by
        rw [cleanText_self]
        calc (trimWs (stripTrailingColons (cleanText s))).length
            ≤ (stripTrailingColons (cleanText s)).length := by
              unfold trimWs
              exact Nat.le_trans (dropWhileL_le _ _) (trimRight_le _)
          _ < (cleanText s).length := stripTC_lt _ hq
      rw [h] at hlt
      exact Nat.lt_irrefl _ hlt
  · intro h
    rw [cleanText_self, stripTC_fix _ h, trimWs_cleanText_fix]

/-! ## Case-insensitive matching helpers (C5, C6) -/

/-- A case-insensitively matched literal prefix is consumed exactly. -/
theorem matchCI_append : ∀ {pat x : List Char} (r : List Char),
    ciEqL pat x = true → matchCI pat (x ++ r) = some r := by
  intro pat
  induction pat with
  | nil =>
    intro x r h
    cases x with
    | nil => rfl
    | cons c cs => unfold ciEqL at h; cases h
  | cons p ps ih =>
    intro x r h
    cases x with
    | nil => unfold ciEqL at h; cases h
    | cons c cs =>
      unfold ciEqL at h
      have h2 := Bool.and_eq_true _ _ |>.mp h
      rw [List.cons_append]
      unfold matchCI
      rw [if_pos h2.1]
      exact ih r h2.2

/-- A case-insensitive equality against a concatenated pattern splits
the target at the same point. -/
theorem ciEqL_split (w1 w2 : List Char) : ∀ {ph : List Char},
    ciEqL (w1 ++ w2) ph = true →
    ∃ p1 p2, ph = p1 ++ p2 ∧ ciEqL w1 p1 = true ∧ ciEqL w2 p2 = true := by
  induction w1 with
  | nil => intro ph h; exact ⟨[], ph, rfl, rfl, h⟩
  | cons a as ih =>
    intro ph h
    cases ph with
    | nil => rw [List.cons_append] at h; unfold ciEqL at h; cases h
    | cons c cs =>
      rw [List.cons_append] at h
      unfold ciEqL at h
      have h2 := Bool.and_eq_true _ _ |>.mp h
      obtain ⟨p1, p2, heq, ha, hb⟩ := ih h2.2
      refine ⟨c :: p1, p2, by rw [heq, List.cons_append], ?_, hb⟩
      unfold ciEqL
      rw [h2.1, ha]
      rfl

/-- A case-insensitive match of a non-empty pattern needs a non-empty
target. -/
theorem ciEqL_ne_nil {p : Char} {ps ph : List Char}
    (h : ciEqL (p :: ps) ph = true) : ph ≠ [] := by
  cases ph with
  | nil => unfold ciEqL at h; cases h
  | cons c cs => exact fun hc => by cases hc

/-- Only a plain space is case-insensitively equal to a space. -/
theorem ciChEq_space {c : Char} (h : ciChEq ' ' c = true) : c = ' ' := by
  have hsp : (' ' : Char).toNat = 32 := rfl
  unfold ciChEq isAsciiUpper at h
  simp only [Bool.or_eq_true, Bool.and_eq_true, decide_eq_true_eq] at h
  rcases h with (h | h) | h
  · exact h.symm
  · rw [hsp] at h; omega
  · rw [hsp] at h; omega

/-- A character case-insensitively equal to an ASCII lowercase letter is
an ASCII letter, hence not whitespace. -/
theorem ciChEq_lower_not_ws {a c : Char} (ha : isAsciiLower a = true)
    (h : ciChEq a c = true) : isJsWhitespace c = false := by
  unfold isAsciiLower at ha
  simp only [Bool.and_eq_true, decide_eq_true_eq] at ha
  have hc : 65 ≤ c.toNat ∧ c.toNat ≤ 122 := by
    unfold ciChEq isAsciiUpper at h
    simp only [Bool.or_eq_true, Bool.and_eq_true, decide_eq_true_eq] at h
    rcases h with (h | h) | h
    · rw [← h]; omega
    · omega
    · omega
  cases hq : isJsWhitespace c with
  | false => rfl
  | true =>
    exfalso
    unfold isJsWhitespace at hq
    simp only [Bool.or_eq_true, Bool.and_eq_true, decide_eq_true_eq] at hq
    omega

/-- Whitespace-skipping over a target that case-insensitively matches a
word starting with a lowercase letter is the identity. -/
theorem dropWhile_ws_of_lower {a : Char} {was p : List Char} (post : List Char)
    (ha : isAsciiLower a = true) (hciEq : ciEqL (a :: was) p = true) :
    (p ++ post).dropWhile isJsWhitespace = p ++ post := by
  cases p with
  | nil => unfold ciEqL at hciEq; cases hciEq
  | cons c cs =>
    unfold ciEqL at hciEq
    have h2 := Bool.and_eq_true _ _ |>.mp hciEq
    rw [List.cons_append, List.dropWhile_cons,
      if_neg (by simp [ciChEq_lower_not_ws ha h2.1])]

/-- Reduction of the gap matcher at a successful first word. -/
theorem wordsGapAt_step {w w2 : List Char} {ws : List (List Char)}
    {l r : List Char} {c : Char} (hm : matchCI w l = some (c :: r)) :
    wordsGapAt (w :: w2 :: ws) l =
      (isJsWhitespace c && wordsGapAt (w2 :: ws) (r.dropWhile isJsWhitespace)) := by
  conv_lhs => unfold wordsGapAt
  rw [hm]

/-- Reduction of the gap matcher at its final word. -/
theorem wordsGapAt_last (w l : List Char) :
    wordsGapAt [w] l = (matchCI w l).isSome := by
  unfold wordsGapAt
  rfl

/-- Two words of a phrase, matched case-insensitively with a single
space between them, satisfy the gap matcher. -/
theorem wordsGap2 (w1 : List Char) (a : Char) (was : List Char)
    {ph : List Char} (post : List Char) (ha : isAsciiLower a = true)
    (h : ciEqL (w1 ++ ' ' :: a :: was) ph = true) :
    wordsGapAt [w1, a :: was] (ph ++ post) = true := by
  obtain ⟨p1, p2', heq, h1, h2⟩ := ciEqL_split w1 (' ' :: a :: was) h
  cases p2' with
  | nil => unfold ciEqL at h2; cases h2
  | cons s p2 =>
    unfold ciEqL at h2
    have h2' := Bool.and_eq_true _ _ |>.mp h2
    have hs : s = ' ' := ciChEq_space h2'.1
    subst hs heq
    have hm : matchCI w1 ((p1 ++ ' ' :: p2) ++ post) = some (' ' :: (p2 ++ post)) := by
      rw [List.append_assoc, List.cons_append]
      exact matchCI_append _ h1
    rw [wordsGapAt_step hm, dropWhile_ws_of_lower post ha h2'.2]
    have hsome : (matchCI (a :: was) (p2 ++ post)).isSome = true := by
      rw [matchCI_append _ h2'.2]
      rfl
    rw [wordsGapAt_last, hsome]
    rfl

/-- Three words of a phrase, matched case-insensitively with single
spaces between them, satisfy the gap matcher. -/
theorem wordsGap3 (w1 : List Char) (a : Char) (was : List Char) (b : Char)
    (wbs : List Char) {ph : List Char} (post : List Char)
    (ha : isAsciiLower a = true) (hb : isAsciiLower b = true)
    (h : ciEqL (w1 ++ ' ' :: ((a :: was) ++ ' ' :: b :: wbs)) ph = true) :
    wordsGapAt [w1, a :: was, b :: wbs] (ph ++ post) = true := by
  obtain ⟨p1, p2', heq, h1, h2⟩ :=
    ciEqL_split w1 (' ' :: ((a :: was) ++ ' ' :: b :: wbs)) h
  cases p2' with
  | nil => unfold ciEqL at h2; cases h2
  | cons s q =>
    unfold ciEqL at h2
    have h2' := Bool.and_eq_true _ _ |>.mp h2
    have hs : s = ' ' := ciChEq_space h2'.1
    subst hs heq
    obtain ⟨q1, q2', heq2, hq1, hq2⟩ :=
      ciEqL_split (a :: was) (' ' :: b :: wbs) h2'.2
    cases q2' with
    | nil => unfold ciEqL at hq2; cases hq2
    | cons s2 q2 =>
      unfold ciEqL at hq2
      have hq2' := Bool.and_eq_true _ _ |>.mp hq2
      have hs2 : s2 = ' ' := ciChEq_space hq2'.1
      subst hs2 heq2
      have hm : matchCI w1 ((p1 ++ ' ' :: (q1 ++ ' ' :: q2)) ++ post) =
          some (' ' :: ((q1 ++ ' ' :: q2) ++ post)) := by
        rw [List.append_assoc, List.cons_append]
        exact matchCI_append _ h1
      rw [wordsGapAt_step hm]
      have hassoc : (q1 ++ (' ' :: q2)) ++ post = q1 ++ ((' ' :: q2) ++ post) :=
        List.append_assoc q1 (' ' :: q2) post
      rw [hassoc, List.cons_append,
        dropWhile_ws_of_lower (' ' :: (q2 ++ post)) ha hq1]
      have hm2 : matchCI (a :: was) (q1 ++ (' ' :: (q2 ++ post))) =
          some (' ' :: (q2 ++ post)) := matchCI_append _ hq1
      rw [wordsGapAt_step hm2, dropWhile_ws_of_lower post hb hq2'.2]
      have hsome : (matchCI (b :: wbs) (q2 ++ post)).isSome = true := by
        rw [matchCI_append _ hq2'.2]
        rfl
      rw [wordsGapAt_last, hsome]
      rfl

/-- A phrase hit anywhere in the text makes the scan succeed. -/
theorem notFoundScan_append : ∀ (pre l2 : List Char), l2 ≠ [] →
    notFoundAt l2 = true → notFoundScan (pre ++ l2) = true := by
  intro pre
  induction pre with
  | nil =>
    intro l2 hne h
    cases l2 with
    | nil => exact absurd rfl hne
    | cons c rest =>
      rw [List.nil_append]
      unfold notFoundScan
      rw [h]
      rfl
  | cons c rest ih =>
    intro l2 hne h
    rw [List.cons_append]
    unfold notFoundScan
    rw [ih l2 hne h]
    simp

/-- C6: a cleaned page body containing (case-insensitively) one of the
operator-side not-found phrases makes the pipeline raise TX_NOT_FOUND
before resolution, for every document and transaction identifier --
including documents whose fields would all resolve. -/
theorem txNotFound_shortCircuit
    (doc : List (List (List Char))) (bodyRaw tx pre ph post : List Char)
    (hdec : cleanText bodyRaw = (pre ++ ph) ++ post)
    (hph : ciEqL "no data".toList ph = true ∨ ciEqL "not found".toList ph = true ∨
      ciEqL "invalid invoice".toList ph = true ∨
      ciEqL "does not exist".toList ph = true) :
    processHtmlPage doc bodyRaw tx = .error .txNotFound := by
  have hne : ph ≠ [] := by
    rcases hph with h | h | h | h <;> exact ciEqL_ne_nil h
  have hat : notFoundAt (ph ++ post) = true := by
    unfold notFoundAt
    simp only [Bool.or_eq_true]
    rcases hph with h | h | h | h
    · exact Or.inl (Or.inl (Or.inl
        (wordsGap2 "no".toList 'd' "ata".toList post (by decide) h)))
    · exact Or.inl (Or.inl (Or.inr
        (wordsGap2 "not".toList 'f' "ound".toList post (by decide) h)))
    · exact Or.inl (Or.inr
        (wordsGap2 "invalid".toList 'i' "nvoice".toList post (by decide) h))
    · exact Or.inr
        (wordsGap3 "does".toList 'n' "ot".toList 'e' "xist".toList post
          (by decide) (by decide) h)
  have hscan : notFoundScan (cleanText bodyRaw) = true := by
    rw [hdec, List.append_assoc]
    refine notFoundScan_append pre (ph ++ post) ?_ hat
    intro hx
    cases ph with
    | nil => exact hne rfl
    | cons c cs => cases hx
  simp [processHtmlPage, hscan]

set_option maxRecDepth 4000 in
/-- Witness for C6: a concrete page carrying the phrase Invalid Invoice
short-circuits to TX_NOT_FOUND although its fields would all resolve
and pass the acceptance gate. -/
theorem txNotFound_shortCircuit_witness :
    processHtmlPage [["Credited party account no".toList, "251911".toList]]
      "Invalid Invoice Settled Amount 500.00 Birr".toList "ABCDEFGH12".toList =
      .error .txNotFound ∧
    exceptOk (acceptanceGate (extractCanonical
      [["Credited party account no".toList, "251911".toList]]
      "Invalid Invoice Settled Amount 500.00 Birr".toList
      "ABCDEFGH12".toList)) = true :=
  ⟨txNotFound_shortCircuit _ _ _ [] "Invalid Invoice".toList
      " Settled Amount 500.00 Birr".toList (by decide)
      (Or.inr (Or.inr (Or.inl (by decide)))),
    by decide⟩

/-! ## The settled-amount search (C5) -/

/-- Shape of the optional fraction group of the amount regex: absent,
one digit, or two digits after a dot. -/
def FracShape (fr : List Char) : Prop :=
  fr = [] ∨ (∃ a, fr = ['.', a] ∧ isDigitChar a = true) ∨
  (∃ a b, fr = ['.', a, b] ∧ isDigitChar a = true ∧ isDigitChar b = true)

/-- dropWhile passes over a satisfying prefix. -/
theorem dropWhile_all_append (p : Char → Bool) :
    ∀ (xs ys : List Char), (∀ c ∈ xs, p c = true) →
      (xs ++ ys).dropWhile p = ys.dropWhile p := by
  intro xs
  induction xs with
  | nil => intro ys _; rfl
  | cons x xr ih =>
    intro ys h
    rw [List.cons_append, List.dropWhile_cons,
      if_pos (h x (List.mem_cons_self _ _)),
      ih ys (fun c hc => h c (List.mem_cons_of_mem _ hc))]

/-- dropWhile stops at an unsatisfying head. -/
theorem dropWhile_head_not (p : Char → Bool) (y : Char) (ys : List Char)
    (h : p y = false) : (y :: ys).dropWhile p = y :: ys := by
  rw [List.dropWhile_cons, if_neg (by simp [h])]

/-- takeWhile takes exactly a satisfying prefix up to an unsatisfying
head. -/
theorem takeWhile_exact (p : Char → Bool) :
    ∀ (xs : List Char) (y : Char) (ys : List Char), (∀ c ∈ xs, p c = true) →
      p y = false → (xs ++ y :: ys).takeWhile p = xs := by
  intro xs
  induction xs with
  | nil =>
    intro y ys _ hy
    rw [List.nil_append, List.takeWhile_cons, if_neg (by simp [hy])]
  | cons x xr ih =>
    intro y ys h hy
    rw [List.cons_append, List.takeWhile_cons,
      if_pos (h x (List.mem_cons_self _ _)),
      ih y ys (fun c hc => h c (List.mem_cons_of_mem _ hc)) hy]

/-- dropWhile drops exactly a satisfying prefix up to an unsatisfying
head. -/
theorem dropWhile_exact (p : Char → Bool) (xs : List Char) (y : Char)
    (ys : List Char) (h : ∀ c ∈ xs, p c = true) (hy : p y = false) :
    (xs ++ y :: ys).dropWhile p = y :: ys := by
  rw [dropWhile_all_append p xs (y :: ys) h, dropWhile_head_not p y ys hy]

/-- An amount character is not whitespace. -/
theorem amt_not_ws {c : Char} (h : isAmtChar c = true) :
    isJsWhitespace c = false := by
  unfold isAmtChar isDigitChar at h
  simp only [Bool.or_eq_true, Bool.and_eq_true, decide_eq_true_eq] at h
  cases hq : isJsWhitespace c with
  | false => rfl
  | true =>
    exfalso
    unfold isJsWhitespace at hq
    simp only [Bool.or_eq_true, Bool.and_eq_true, decide_eq_true_eq] at hq
    omega

/-- Whitespace is not an amount character. -/
theorem ws_not_amt {c : Char} (h : isJsWhitespace c = true) :
    isAmtChar c = false := by
  cases hq : isAmtChar c with
  | false => rfl
  | true => rw [amt_not_ws hq] at h; cases h

/-- Whitespace is not a digit. -/
theorem ws_not_digit {c : Char} (h : isJsWhitespace c = true) :
    isDigitChar c = false := by
  cases hq : isDigitChar c with
  | false => rfl
  | true =>
    have : isAmtChar c = true := by unfold isAmtChar; rw [hq]; rfl
    rw [amt_not_ws this] at h
    cases h

/-- Whitespace is not the dot. -/
theorem ws_ne_dot {c : Char} (h : isJsWhitespace c = true) : ¬(c = '.') := by
  intro hc
  rw [hc] at h
  cases h

/-- Wordness of the character preceding the rest of a scan, after the
scan has walked a prefix: the wordness of the prefix's last character,
or the incoming flag for an empty prefix. -/
def pwAfter : Bool → List Char → Bool
  | pw, [] => pw
  | _, c :: rest => pwAfter (isWordChar c) rest

/-- The last character, if any, is not a word character: the boundary
condition a prefix must satisfy for a match to start right after it. -/
def boundaryLB : List Char → Bool
  | [] => true
  | [c] => !isWordChar c
  | _ :: c :: rest => boundaryLB (c :: rest)

/-- No position inside the prefix starts a match of the per-position
matcher (with the boundary carried by the wordness flag). -/
def noEarlierB (att : List Char → Option (List Char)) :
    Bool → List Char → List Char → Bool
  | _, [], _ => true
  | pw, c :: pre, rest =>
    (if pw then none else att (c :: (pre ++ rest))).isNone &&
      noEarlierB att (isWordChar c) pre rest

/-- Scan reduction when the current position fails. -/
theorem scanB_cons_none (att : List Char → Option (List Char)) (pw : Bool)
    (c : Char) (rest : List Char)
    (h : (if pw then none else att (c :: rest)) = none) :
    scanB att pw (c :: rest) = scanB att (isWordChar c) rest := by
  conv_lhs => unfold scanB
  rw [h]

/-- Scan reduction when the current position matches. -/
theorem scanB_cons_some (att : List Char → Option (List Char)) (pw : Bool)
    (c : Char) (rest r : List Char)
    (h : (if pw then none else att (c :: rest)) = some r) :
    scanB att pw (c :: rest) = some r := by
  conv_lhs => unfold scanB
  rw [h]

/-- A scan walks past a prefix on which no position matches. -/
theorem scanB_advance (att : List Char → Option (List Char)) :
    ∀ (pre : List Char) (pw : Bool) (rest : List Char),
      noEarlierB att pw pre rest = true →
      scanB att pw (pre ++ rest) = scanB att (pwAfter pw pre) rest := by
  intro pre
  induction pre with
  | nil => intro pw rest _; rfl
  | cons c pre' ih =>
    intro pw rest h
    unfold noEarlierB at h
    have h2 := Bool.and_eq_true _ _ |>.mp h
    have hnone : (if pw then none else att (c :: (pre' ++ rest))) = none :=
      Option.isNone_iff_eq_none.mp h2.1
    rw [List.cons_append, scanB_cons_none att pw c (pre' ++ rest) hnone]
    exact ih (isWordChar c) rest h2.2

/-- After a prefix satisfying the boundary condition, the scan's
wordness flag is false. -/
theorem pwAfter_boundary : ∀ (pre : List Char),
    boundaryLB pre = true → pwAfter false pre = false := by
  intro pre
  induction pre with
  | nil => intro _; rfl
  | cons c pre' ih =>
    intro h
    cases pre' with
    | nil =>
      unfold boundaryLB at h
      unfold pwAfter pwAfter
      simpa using h
    | cons d rest =>
      have h2 : boundaryLB (d :: rest) = true := h
      have key : ∀ pw : Bool, pwAfter pw (d :: rest) = pwAfter false (d :: rest) := by
        intro pw
        rfl
      unfold pwAfter
      rw [key (isWordChar c)]
      exact ih h2

/-- Closing the amount pattern over whitespace, the currency word and a
boundary-satisfying remainder yields the capture. -/
theorem finishBirr_hit (cap sp2 post : List Char)
    (hsp2 : ∀ c ∈ sp2, isJsWhitespace c = true)
    (hpost : boundaryOk post = true) :
    finishBirr cap (sp2 ++ ("Birr".toList ++ post)) = some cap := by
  unfold finishBirr
  rw [dropWhile_all_append _ sp2 _ hsp2,
    show ("Birr".toList ++ post) = 'B' :: ("irr".toList ++ post) from rfl,
    dropWhile_head_not _ _ _ (by decide),
    show ('B' :: ("irr".toList ++ post)) = "Birr".toList ++ post from rfl,
    matchCI_append post (by decide)]
  simp [hpost]

/-- The fraction alternatives at a non-dot head: only the absent
fraction. -/
theorem fracCands_nodot (x0 : Char) (xs : List Char) (hx : ¬(x0 = '.')) :
    fracCands (x0 :: xs) = [([], x0 :: xs)] := by
  simp [fracCands, hx]

/-- The fraction alternatives at a dot followed by exactly one digit
before a non-digit: the one-digit fraction, then the absent one. -/
theorem fracCands_dot1 (a x0 : Char) (xs : List Char)
    (hda : isDigitChar a = true) (hdx : isDigitChar x0 = false) :
    fracCands ('.' :: a :: x0 :: xs) =
      [(['.', a], x0 :: xs), ([], '.' :: a :: x0 :: xs)] := by
  simp [fracCands, hda, hdx]

/-- The fraction alternatives at a dot followed by two digits: the
two-digit fraction first, then the one-digit one, then the absent
one. -/
theorem fracCands_dot2 (a b : Char) (xs : List Char)
    (hda : isDigitChar a = true) (hdb : isDigitChar b = true) :
    fracCands ('.' :: a :: b :: xs) =
      [(['.', a, b], xs), (['.', a], b :: xs), ([], '.' :: a :: b :: xs)] := by
  simp [fracCands, hda, hdb]

/-- Reduction of the per-position matcher at a matched anchor. -/
theorem settledAtPos_red {l r : List Char}
    (h : matchCI "settled amount".toList l = some r) :
    settledAtPos l = settledTail r := by
  conv_lhs => unfold settledAtPos
  rw [h]

/-- The amount tail matcher on a well-formed region returns exactly the
number. -/
theorem settledTail_hit (sp1 intp fr sp2 post : List Char)
    (hsp1 : ∀ c ∈ sp1, isJsWhitespace c = true)
    (hne : intp ≠ []) (hall : ∀ c ∈ intp, isAmtChar c = true)
    (hfr : FracShape fr)
    (hsp2 : ∀ c ∈ sp2, isJsWhitespace c = true)
    (hpost : boundaryOk post = true) :
    settledTail (sp1 ++ (intp ++ (fr ++ (sp2 ++ ("Birr".toList ++ post))))) =
      some (intp ++ fr) := by
  obtain ⟨i0, ir, rfl⟩ := List.exists_cons_of_ne_nil hne
  obtain ⟨x0, xs, hXeq, hxd, hxdot, hxa⟩ :
      ∃ x0 xs, sp2 ++ ("Birr".toList ++ post) = x0 :: xs ∧
        isDigitChar x0 = false ∧ ¬(x0 = '.') ∧ isAmtChar x0 = false := by
    cases sp2 with
    | nil =>
      exact ⟨'B', "irr".toList ++ post, rfl, by decide, by decide, by decide⟩
    | cons w ws2 =>
      have hw := hsp2 w (List.mem_cons_self _ _)
      exact ⟨w, ws2 ++ ("Birr".toList ++ post), List.cons_append _ _ _,
        ws_not_digit hw, ws_ne_dot hw, ws_not_amt hw⟩
  have hi0 : isAmtChar i0 = true := hall i0 (List.mem_cons_self _ _)
  have hdropws : (sp1 ++ ((i0 :: ir) ++ (fr ++ (sp2 ++ ("Birr".toList ++ post))))).dropWhile
      isJsWhitespace = (i0 :: ir) ++ (fr ++ (sp2 ++ ("Birr".toList ++ post))) := by
    rw [dropWhile_all_append _ sp1 _ hsp1, List.cons_append,
      dropWhile_head_not _ _ _ (amt_not_ws hi0)]
  unfold settledTail
  rcases hfr with rfl | ⟨a, rfl, hda⟩ | ⟨a, b, rfl, hda, hdb⟩
  · rw [List.nil_append] at hdropws ⊢
    rw [hdropws, hXeq,
      takeWhile_exact _ (i0 :: ir) x0 xs hall hxa,
      dropWhile_exact _ (i0 :: ir) x0 xs hall hxa,
      if_neg (by simp),
      fracCands_nodot x0 xs hxdot, List.findSome?_cons]
    rw [List.append_nil, ← hXeq, finishBirr_hit _ sp2 post hsp2 hpost]
  · rw [show (['.', a] ++ (sp2 ++ ("Birr".toList ++ post))) =
        '.' :: a :: (sp2 ++ ("Birr".toList ++ post)) from rfl] at hdropws ⊢
    rw [hdropws, hXeq,
      takeWhile_exact _ (i0 :: ir) '.' _ hall (by decide),
      dropWhile_exact _ (i0 :: ir) '.' _ hall (by decide),
      if_neg (by simp),
      fracCands_dot1 a x0 xs hda hxd, List.findSome?_cons]
    rw [← hXeq, finishBirr_hit _ sp2 post hsp2 hpost]
  · rw [show (['.', a, b] ++ (sp2 ++ ("Birr".toList ++ post))) =
        '.' :: a :: b :: (sp2 ++ ("Birr".toList ++ post)) from rfl] at hdropws ⊢
    rw [hdropws,
      takeWhile_exact _ (i0 :: ir) '.' _ hall (by decide),
      dropWhile_exact _ (i0 :: ir) '.' _ hall (by decide),
      if_neg (by simp),
      fracCands_dot2 a b _ hda hdb, List.findSome?_cons]
    rw [finishBirr_hit _ sp2 post hsp2 hpost]

/-- A list without spaces has no double space. -/
theorem noDbl_of_no_space : ∀ l : List Char, (∀ c ∈ l, ¬(c = ' ')) →
    noDbl l = true := by
  intro l
  induction l with
  | nil => intro _; rfl
  | cons a rest ih =>
    intro h
    cases rest with
    | nil => rfl
    | cons b r2 =>
      unfold noDbl
      rw [ih (fun c hc => h c (List.mem_cons_of_mem _ hc))]
      have ha := h a (List.mem_cons_self _ _)
      simp [ha]

/-- A list without colon characters does not end in one. -/
theorem endsColonB_false_of : ∀ l : List Char,
    (∀ c ∈ l, isColonChar c = false) → endsColonB l = false := by
  intro l
  induction l with
  | nil => intro _; rfl
  | cons a rest ih =>
    intro h
    cases rest with
    | nil => exact h a (List.mem_cons_self _ _)
    | cons b r2 =>
      exact ih (fun c hc => h c (List.mem_cons_of_mem _ hc))

/-- A list without whitespace does not end in whitespace. -/
theorem endsWsB_false_of : ∀ l : List Char,
    (∀ c ∈ l, isJsWhitespace c = false) → endsWsB l = false := by
  intro l
  induction l with
  | nil => intro _; rfl
  | cons a rest ih =>
    intro h
    cases rest with
    | nil => exact h a (List.mem_cons_self _ _)
    | cons b r2 =>
      exact ih (fun c hc => h c (List.mem_cons_of_mem _ hc))

/-- cleanText fixes a captured amount: digits, commas and dots carry no
whitespace, no trailing colon and no space runs. -/
theorem cleanText_fix_amt (l : List Char)
    (h : ∀ c ∈ l, isAmtChar c = true ∨ c = '.') : cleanText l = l := by
  have hws : ∀ c ∈ l, isJsWhitespace c = false := by
    intro c hc
    rcases h c hc with hc2 | hc2
    · exact amt_not_ws hc2
    · rw [hc2]; rfl
  have hcol : ∀ c ∈ l, isColonChar c = false := by
    intro c hc
    rcases h c hc with hc2 | hc2
    · unfold isAmtChar isDigitChar at hc2
      simp only [Bool.or_eq_true, Bool.and_eq_true, decide_eq_true_eq] at hc2
      unfold isColonChar
      cases hq : (c.toNat = 58 || c.toNat = 65306) with
      | false => rfl
      | true =>
        exfalso
        simp only [Bool.or_eq_true, decide_eq_true_eq] at hq
        omega
    · rw [hc2]; rfl
  have hwsOnly : wsOnlySpace l := by
    intro c hc hcw
    rw [hws c hc] at hcw
    cases hcw
  have hnosp : ∀ c ∈ l, ¬(c = ' ') := by
    intro c hc hsp
    have := hws c hc
    rw [hsp] at this
    cases this
  unfold cleanText trimWs
  rw [map_stage_fix l hwsOnly, squeeze_fix l (noDbl_of_no_space l hnosp),
    stripTC_fix l (endsColonB_false_of l hcol),
    trimRight_fix l (endsWsB_false_of l hws)]
  refine dropWhile_fix _ _ ?_
  intro c hc
  cases l with
  | nil => cases hc
  | cons a rest =>
    have ha : a = c := by simpa using hc
    rw [← ha]
    exact hws a (List.mem_cons_self _ _)

/-- The settled-amount search over a body made of a boundary-satisfying
prefix with no earlier match and a well-formed amount region returns
exactly the number. -/
theorem settledSearch_hit (pre sp1 intp fr sp2 post : List Char)
    (hsp1 : ∀ c ∈ sp1, isJsWhitespace c = true)
    (hne : intp ≠ []) (hall : ∀ c ∈ intp, isAmtChar c = true)
    (hfr : FracShape fr)
    (hsp2 : ∀ c ∈ sp2, isJsWhitespace c = true)
    (hpost : boundaryOk post = true)
    (hbound : boundaryLB pre = true)
    (hnoe : noEarlierB settledAtPos false pre
      ("Settled Amount".toList ++
        (sp1 ++ (intp ++ (fr ++ (sp2 ++ ("Birr".toList ++ post)))))) = true) :
    settledSearch (pre ++ ("Settled Amount".toList ++
        (sp1 ++ (intp ++ (fr ++ (sp2 ++ ("Birr".toList ++ post))))))) =
      some (intp ++ fr) := by
  have hpos : settledAtPos ("Settled Amount".toList ++
      (sp1 ++ (intp ++ (fr ++ (sp2 ++ ("Birr".toList ++ post)))))) =
      some (intp ++ fr) := by
    rw [settledAtPos_red (matchCI_append _ (by decide))]
    exact settledTail_hit sp1 intp fr sp2 post hsp1 hne hall hfr hsp2 hpost
  unfold settledSearch
  rw [scanB_advance settledAtPos pre false _ hnoe, pwAfter_boundary pre hbound]
  rw [show ("Settled Amount".toList ++
      (sp1 ++ (intp ++ (fr ++ (sp2 ++ ("Birr".toList ++ post)))))) =
    'S' :: ("ettled Amount".toList ++
      (sp1 ++ (intp ++ (fr ++ (sp2 ++ ("Birr".toList ++ post)))))) from rfl]
  rw [scanB_cons_some settledAtPos false _ _ (intp ++ fr)
    (by rw [if_neg (by simp)]; exact hpos)]
  rw [show Option.map cleanText (some (intp ++ fr)) =
    some (cleanText (intp ++ fr)) from rfl]
  rw [cleanText_fix_amt (intp ++ fr) ?_]
  intro c hc
  rcases List.mem_append.mp hc with hc2 | hc2
  · exact Or.inl (hall c hc2)
  · rcases hfr with rfl | ⟨a, rfl, hda⟩ | ⟨a, b, rfl, hda, hdb⟩
    · cases hc2
    · rcases List.mem_cons.mp hc2 with rfl | hc3
      · exact Or.inr rfl
      · have : c = a := by simpa using hc3
        rw [this]
        exact Or.inl (by unfold isAmtChar; rw [hda]; rfl)
    · rcases List.mem_cons.mp hc2 with rfl | hc3
      · exact Or.inr rfl
      · rcases List.mem_cons.mp hc3 with rfl | hc4
        · exact Or.inl (by unfold isAmtChar; rw [hda]; rfl)
        · have : c = b := by simpa using hc4
          rw [this]
          exact Or.inl (by unfold isAmtChar; rw [hdb]; rfl)

set_option maxRecDepth 8000 in
/-- C5: on a body whose cleaned text (after download-the-pdf removal)
carries the anchor Settled Amount followed by a well-formed decimal
number and the currency word Birr at a word boundary, with no earlier
match, resolution sets settledAmount to exactly the numeric portion;
the concrete example resolves 1,234.50; and a body without any match
leaves settledAmount absent. -/
theorem settledAmount_resolution :
    (∀ (doc : List (List (List Char))) (bodyRaw tx pre sp1 intp fr sp2 post : List Char),
      removePdf (cleanText bodyRaw) =
        pre ++ ("Settled Amount".toList ++
          (sp1 ++ (intp ++ (fr ++ (sp2 ++ ("Birr".toList ++ post)))))) →
      (∀ c ∈ sp1, isJsWhitespace c = true) →
      intp ≠ [] → (∀ c ∈ intp, isAmtChar c = true) →
      FracShape fr →
      (∀ c ∈ sp2, isJsWhitespace c = true) →
      boundaryOk post = true →
      boundaryLB pre = true →
      noEarlierB settledAtPos false pre
        ("Settled Amount".toList ++
          (sp1 ++ (intp ++ (fr ++ (sp2 ++ ("Birr".toList ++ post)))))) = true →
      (extractCanonical doc bodyRaw tx).settledAmount = some (intp ++ fr)) ∧
    (extractCanonical [] "Receipt 01 Settled Amount 1,234.50 Birr total".toList
      "ABCDEFGH12".toList).settledAmount = some "1,234.50".toList ∧
    (∀ (doc : List (List (List Char))) (bodyRaw tx : List Char),
      noEarlierB settledAtPos false (removePdf (cleanText bodyRaw)) [] = true →
      (extractCanonical doc bodyRaw tx).settledAmount = none) := by
  have hproj : ∀ (doc : List (List (List Char))) (bodyRaw tx : List Char),
      (extractCanonical doc bodyRaw tx).settledAmount =
        orNull (settledSearch (removePdf (cleanText bodyRaw))) :=
    fun _ _ _ => rfl
  refine ⟨?_, by decide, ?_⟩
  · intro doc bodyRaw tx pre sp1 intp fr sp2 post hdec hsp1 hne hall hfr hsp2
      hpost hbound hnoe
    rw [hproj, hdec,
      settledSearch_hit pre sp1 intp fr sp2 post hsp1 hne hall hfr hsp2 hpost
        hbound hnoe]
    obtain ⟨i0, ir, rfl⟩ := List.exists_cons_of_ne_nil hne
    simp [orNull]
  · intro doc bodyRaw tx h
    rw [hproj]
    have hadv := scanB_advance settledAtPos (removePdf (cleanText bodyRaw)) false [] h
    rw [List.append_nil] at hadv
    unfold settledSearch
    rw [hadv]
    rfl

set_option maxRecDepth 8000 in
/-- Witness for C5 at a concrete page body. -/
theorem settledAmount_resolution_witness :
    (extractCanonical [] "x Settled Amount 1,234.50 Birr y".toList
      "ABCDEFGH12".toList).settledAmount = some "1,234.50".toList :=
  settledAmount_resolution.1 [] "x Settled Amount 1,234.50 Birr y".toList
    "ABCDEFGH12".toList "x ".toList " ".toList "1,234".toList ".50".toList
    " ".toList " y".toList (by decide) (by decide) (by decide) (by decide)
    (Or.inr (Or.inr ⟨'5', '0', rfl, by decide, by decide⟩))
    (by decide) (by decide) (by decide) (by decide)

/-- C10: invoiceNo always falls back to the caller's transaction
identifier, so it is non-empty whenever the identifier is; hence a
PARSE_FAIL raised for a validated ten-character identifier always
reports hasInvoiceNo true -- that branch of the presence report cannot
be false then. -/
theorem invoiceNo_fallback :
    (∀ (doc : List (List (List Char))) (bodyRaw tx : List Char), tx ≠ [] →
      truthyS (extractCanonical doc bodyRaw tx).invoiceNo = true) ∧
    (∀ (doc : List (List (List Char))) (bodyRaw tx : List Char) (d : ParseDetails),
      txRegexTest tx = true →
      processHtmlPage doc bodyRaw tx = .error (.parseFail d) →
      d.hasInvoiceNo = true) := by
  have base : ∀ (doc : List (List (List Char))) (bodyRaw tx : List Char), tx ≠ [] →
      truthyS (extractCanonical doc bodyRaw tx).invoiceNo = true := by
    intro doc bodyRaw tx hne
    have hprojI : (extractCanonical doc bodyRaw tx).invoiceNo =
        (match invoiceSearch (removePdf (cleanText bodyRaw)) with
         | some s => if s = [] then tx else s
         | none => tx) := rfl
    rw [hprojI]
    cases hs : invoiceSearch (removePdf (cleanText bodyRaw)) with
    | none => simpa [truthyS] using hne
    | some s =>
      by_cases hsw : s = []
      · simp [hsw, truthyS, hne]
      · simp [hsw, truthyS]
  refine ⟨base, ?_⟩
  intro doc bodyRaw tx d htx hp
  have hne : tx ≠ [] := by
    have hlen := ((repMatch_iff isAlnumChar 10 tx).mp htx).1
    intro hx
    rw [hx] at hlen
    simp at hlen
  unfold processHtmlPage at hp
  by_cases hnf : notFoundScan (cleanText bodyRaw) = true
  · rw [if_pos hnf] at hp
    simp at hp
  · rw [if_neg hnf] at hp
    unfold acceptanceGate at hp
    split at hp
    · have hd : d = ⟨truthyS (extractCanonical doc bodyRaw tx).invoiceNo,
          truthyO (extractCanonical doc bodyRaw tx).settledAmount,
          truthyO (extractCanonical doc bodyRaw tx).creditedPartyAccountNo⟩ := by
        have h2 := hp
        simp only [Except.error.injEq, PipeError.parseFail.injEq] at h2
        exact h2.symm
      rw [hd]
      exact base doc bodyRaw tx hne
    · simp at hp

set_option maxRecDepth 4000 in
/-- Witness for C10: a page resolving nothing still reports
hasInvoiceNo true in its PARSE_FAIL details for a valid identifier. -/
theorem invoiceNo_fallback_witness :
    ParseDetails.hasInvoiceNo
      { hasInvoiceNo := true, hasSettledAmount := false
        hasCreditedPartyAccountNo := false } = true ∧
    truthyS (extractCanonical [] "hello receipt page".toList
      "ABCDEFGH12".toList).invoiceNo = true :=
  ⟨invoiceNo_fallback.2 [] "hello receipt page".toList "ABCDEFGH12".toList
      { hasInvoiceNo := true, hasSettledAmount := false
        hasCreditedPartyAccountNo := false } (by decide) (by decide),
    invoiceNo_fallback.1 [] "hello receipt page".toList "ABCDEFGH12".toList
      (by decide)⟩

end Receipt
